import Mathlib

/-!
# Proof-of-work chain (`main.go`): embedding and verified properties

The Go program keeps a single in-memory chain of blocks.  Each block is
sealed by a brute-force search (`ProofOfWork.Run`) for a nonce whose digest,
read as a big-endian unsigned integer, lies below a target.

Modelling decisions.

* A Go `byte` is `Fin 256`, a `[]byte` is `List Byte`, a `[32]byte` is a list
  of bytes carrying the proof that its length is 32.
* Go `int`, `int64` and `*big.Int` values are `Int`; the conversions to a
  fixed width (`uint(...)`, the 8 bytes `binary.Write` emits) reduce modulo
  `2 ^ 64` explicitly.
* `crypto/sha256.Sum256` is library code outside the repository.  Every
  operation that calls it takes it as the parameter `sum256`; `sha256` below
  is the FIPS 180-4 function, used to instantiate that parameter.
* `const targetBits = 20` is the parameter `bits` of the operations, and
  `targetBits` is its configured value.  A value of the constant for which
  the conversion `uint(256-targetBits)` does not compile has no program;
  `NewProofOfWorkChecked` returns `none` for it.
* `time.Now().Unix()` is the parameter `now` of `NewBlock`.
* The `for` loop of `Run` is a recursive function with an allowance of
  iterations; `Run` grants `maxNonce` of them and the loop condition
  `nonce < maxNonce` ends the search before they are used up.
* Console output (`fmt.Printf`) is not modelled.
-/

namespace Blockchain

/-- A Go `byte`. -/
abbrev Byte := Fin 256

/-- A Go `[32]byte`, the result type of `sha256.Sum256`. -/
abbrev Digest := { l : List Byte // l.length = 32 }

/-- The conversion `byte(x)` of an unsigned value: the low eight bits. -/
def toByte (x : Nat) : Byte := ⟨x % 256, Nat.mod_lt x (by decide)⟩

/-- Value `math.MaxInt64` of the package variable `maxNonce`. -/
def maxNonce : Int := 2 ^ 63 - 1

/-- Value of `const targetBits = 20`. -/
def targetBits : Int := 20

/-- The struct `Block`. -/
structure Block where
  Timestamp : Int
  Data : List Byte
  PrevBlockHash : List Byte
  Hash : List Byte
  Nonce : Int
  deriving DecidableEq, Repr

/-- The struct `ProofOfWork`. -/
structure ProofOfWork where
  block : Block
  target : Int
  deriving DecidableEq, Repr

/-- The conversion `uint(x)` of a 64-bit `int`: reduction modulo `2 ^ 64`. -/
def toUint (x : Int) : Nat := (x % 2 ^ 64).toNat

/-- The method `(*big.Int).Lsh`: `x << n`. -/
def Lsh (x : Int) (n : Nat) : Int := x * 2 ^ n

/-- The method `(*big.Int).SetBytes`: the bytes read as a big-endian unsigned
integer. -/
def SetBytes (buf : List Byte) : Int :=
  ((buf.foldl (fun acc b => acc * 256 + b.val) 0 : Nat) : Int)

/-- The function `NewProofOfWork`, with the difficulty `bits` in the place of
the constant `targetBits`: `target = 1 << uint(256 - bits)`.  The conversion
is the wrapping one of a run-time value; it is the program's for every
difficulty whose conversion the compiler accepts, and `NewProofOfWorkChecked`
tells which those are. -/
def NewProofOfWork (bits : Int) (b : Block) : ProofOfWork :=
  ⟨b, Lsh 1 (toUint (256 - bits))⟩

/-- The conversion `uint(c)` of a constant expression: Go accepts it only when
the constant is representable as a `uint`, `0 ≤ c < 2 ^ 64`, and refuses to
compile the program otherwise (`none`). -/
def constUint (c : Int) : Option Nat :=
  if 0 ≤ c ∧ c < 2 ^ 64 then some c.toNat else none

/-- The function `NewProofOfWork` of the program whose constant `targetBits` is
`bits`.  In `uint(256-targetBits)` the operand is a constant expression, so
the conversion is the checked one: `none` when it is refused and no target is
computed. -/
def NewProofOfWorkChecked (bits : Int) (b : Block) : Option ProofOfWork :=
  match constUint (256 - bits) with
  | none => none
  | some n => some ⟨b, Lsh 1 n⟩

/-- The function `IntToHex`: `binary.Write(buff, binary.BigEndian, num)` for an
`int64` emits the eight bytes of `uint64(num)`, most significant first. -/
def IntToHex (num : Int) : List Byte :=
  let v := toUint num
  [toByte (v >>> 56), toByte (v >>> 48), toByte (v >>> 40), toByte (v >>> 32),
   toByte (v >>> 24), toByte (v >>> 16), toByte (v >>> 8), toByte v]

/-- The method `prepareData`: `bytes.Join` with an empty separator of
`PrevBlockHash`, `IntToHex(Timestamp)`, `IntToHex(targetBits)` and
`IntToHex(nonce)`.  The block's `Data` is not among the joined fields. -/
def prepareData (bits : Int) (pow : ProofOfWork) (nonce : Int) : List Byte :=
  pow.block.PrevBlockHash ++ IntToHex pow.block.Timestamp ++ IntToHex bits ++ IntToHex nonce

/-- The zero value of `var hash [32]byte`. -/
def zeroHash : Digest := ⟨List.replicate 32 0, by simp⟩

/-- The loop of `Run`, entered with the current `nonce` and the current value
of the variable `hash`: while `nonce < maxNonce`, hash the candidate, `break`
when `hashInt.Cmp(pow.target) == -1`, otherwise `nonce++`.  The first argument
bounds the number of iterations still allowed; `Run` allows `maxNonce` of
them, which the loop condition never lets the search use up
(`runLoop_fuel`). -/
def runLoop (sum256 : List Byte → Digest) (bits : Int) (pow : ProofOfWork) :
    Nat → Int → Digest → Int × Digest
  | 0, nonce, hash => (nonce, hash)
  | fuel + 1, nonce, hash =>
    if nonce < maxNonce then
      let data := prepareData bits pow nonce
      let hash1 := sum256 data
      if SetBytes hash1.val < pow.target then
        (nonce, hash1)
      else
        runLoop sum256 bits pow fuel (nonce + 1) hash1
    else
      (nonce, hash)

/-- The method `Run`: the loop started at `nonce := 0` with the zero array,
returning `nonce, hash[:]`. -/
def Run (sum256 : List Byte → Digest) (bits : Int) (pow : ProofOfWork) : Int × List Byte :=
  let r := runLoop sum256 bits pow maxNonce.toNat 0 zeroHash
  (r.1, r.2.val)

/-- The method `Validate`: the digest of `prepareData(pow.block.Nonce)` compared
with the target. -/
def Validate (sum256 : List Byte → Digest) (bits : Int) (pow : ProofOfWork) : Bool :=
  let data := prepareData bits pow pow.block.Nonce
  let hash := sum256 data
  decide (SetBytes hash.val < pow.target)

/-- The function `NewBlock`, with the clock reading `now` for
`time.Now().Unix()` and the payload already as bytes (`[]byte(data)`). -/
def NewBlock (sum256 : List Byte → Digest) (bits : Int) (now : Int)
    (data : List Byte) (prevBlockHash : List Byte) : Block :=
  let block : Block := ⟨now, data, prevBlockHash, [], 0⟩
  let pow := NewProofOfWork bits block
  let r := Run sum256 bits pow
  { block with Hash := r.2, Nonce := r.1 }

/-- The struct `BlockChain`. -/
structure BlockChain where
  blocks : List Block
  deriving DecidableEq, Repr

/-- The method `AddBlock`: `none` stands for the run-time panic of the index
expression `bc.blocks[len(bc.blocks)-1]` on an empty slice. -/
def AddBlock (sum256 : List Byte → Digest) (bits : Int) (now : Int)
    (bc : BlockChain) (data : List Byte) : Option BlockChain :=
  match bc.blocks.getLast? with
  | none => none
  | some prevBlock =>
    let newBlock := NewBlock sum256 bits now data prevBlock.Hash
    some ⟨bc.blocks ++ [newBlock]⟩

/-- The bytes of the string literal `"Genesis Block"`. -/
def genesisData : List Byte :=
  [71, 101, 110, 101, 115, 105, 115, 32, 66, 108, 111, 99, 107]

/-- The function `NewGenesisBlock`. -/
def NewGenesisBlock (sum256 : List Byte → Digest) (bits : Int) (now : Int) : Block :=
  NewBlock sum256 bits now genesisData []

/-- The function `NewBlockchain`. -/
def NewBlockchain (sum256 : List Byte → Digest) (bits : Int) (now : Int) : BlockChain :=
  ⟨[NewGenesisBlock sum256 bits now]⟩

/-! ## SHA-256 (FIPS 180-4), the function `crypto/sha256.Sum256` computes -/

namespace SHA256

/-- Addition of 32-bit words. -/
def add32 (x y : Nat) : Nat := (x + y) % 2 ^ 32
/-- Rotation of a 32-bit word to the right by `n` bits. -/
def rotr (x n : Nat) : Nat := ((x >>> n) ||| (x <<< (32 - n))) % 2 ^ 32
/-- The function `Ch`; the complement of `x` is `2 ^ 32 - 1 - x`. -/
def ch (x y z : Nat) : Nat := (x &&& y) ^^^ ((2 ^ 32 - 1 - x) &&& z)
/-- The function `Maj`. -/
def maj (x y z : Nat) : Nat := (x &&& y) ^^^ (x &&& z) ^^^ (y &&& z)
/-- The function `Σ0`. -/
def bigSigma0 (x : Nat) : Nat := rotr x 2 ^^^ rotr x 13 ^^^ rotr x 22
/-- The function `Σ1`. -/
def bigSigma1 (x : Nat) : Nat := rotr x 6 ^^^ rotr x 11 ^^^ rotr x 25
/-- The function `σ0`. -/
def smallSigma0 (x : Nat) : Nat := rotr x 7 ^^^ rotr x 18 ^^^ (x >>> 3)
/-- The function `σ1`. -/
def smallSigma1 (x : Nat) : Nat := rotr x 17 ^^^ rotr x 19 ^^^ (x >>> 10)

/-- The 64 round constants. -/
def K : List Nat :=
  [0x428a2f98, 0x71374491, 0xb5c0fbcf, 0xe9b5dba5, 0x3956c25b, 0x59f111f1, 0x923f82a4, 0xab1c5ed5,
   0xd807aa98, 0x12835b01, 0x243185be, 0x550c7dc3, 0x72be5d74, 0x80deb1fe, 0x9bdc06a7, 0xc19bf174,
   0xe49b69c1, 0xefbe4786, 0x0fc19dc6, 0x240ca1cc, 0x2de92c6f, 0x4a7484aa, 0x5cb0a9dc, 0x76f988da,
   0x983e5152, 0xa831c66d, 0xb00327c8, 0xbf597fc7, 0xc6e00bf3, 0xd5a79147, 0x06ca6351, 0x14292967,
   0x27b70a85, 0x2e1b2138, 0x4d2c6dfc, 0x53380d13, 0x650a7354, 0x766a0abb, 0x81c2c92e, 0x92722c85,
   0xa2bfe8a1, 0xa81a664b, 0xc24b8b70, 0xc76c51a3, 0xd192e819, 0xd6990624, 0xf40e3585, 0x106aa070,
   0x19a4c116, 0x1e376c08, 0x2748774c, 0x34b0bcb5, 0x391c0cb3, 0x4ed8aa4a, 0x5b9cca4f, 0x682e6ff3,
   0x748f82ee, 0x78a5636f, 0x84c87814, 0x8cc70208, 0x90befffa, 0xa4506ceb, 0xbef9a3f7, 0xc67178f2]

/-- The eight working words. -/
structure State where
  a : Nat
  b : Nat
  c : Nat
  d : Nat
  e : Nat
  f : Nat
  g : Nat
  h : Nat

/-- The initial hash value. -/
def init : State :=
  ⟨0x6a09e667, 0xbb67ae85, 0x3c6ef372, 0xa54ff53a, 0x510e527f, 0x9b05688c, 0x1f83d9ab, 0x5be0cd19⟩

/-- Padding: the byte `0x80`, zero bytes up to 56 modulo 64, and the length of
the message in bits as eight big-endian bytes. -/
def pad (msg : List Byte) : List Byte :=
  let l := msg.length
  let bitLen := 8 * l
  msg ++ [(128 : Byte)] ++ List.replicate ((64 - (l + 9) % 64) % 64) (0 : Byte) ++
    [toByte (bitLen >>> 56), toByte (bitLen >>> 48), toByte (bitLen >>> 40), toByte (bitLen >>> 32),
     toByte (bitLen >>> 24), toByte (bitLen >>> 16), toByte (bitLen >>> 8), toByte bitLen]

/-- Big-endian 32-bit words of a byte sequence. -/
def words : List Byte → List Nat
  | b0 :: b1 :: b2 :: b3 :: rest =>
    (b0.val * 2 ^ 24 + b1.val * 2 ^ 16 + b2.val * 2 ^ 8 + b3.val) :: words rest
  | _ => []

/-- The next `n` words of the message schedule after the 16-word window `w`. -/
def extend : Nat → List Nat → List Nat
  | 0, _ => []
  | n + 1, w =>
    match w with
    | [w0, w1, w2, w3, w4, w5, w6, w7, w8, w9, w10, w11, w12, w13, w14, w15] =>
      let x := add32 (add32 (add32 (smallSigma1 w14) w9) (smallSigma0 w1)) w0
      x :: extend n [w1, w2, w3, w4, w5, w6, w7, w8, w9, w10, w11, w12, w13, w14, w15, x]
    | _ => []

/-- One round, on the pair of round constant and schedule word. -/
def round (s : State) (kw : Nat × Nat) : State :=
  let t1 := add32 (add32 (add32 (add32 s.h (bigSigma1 s.e)) (ch s.e s.f s.g)) kw.1) kw.2
  let t2 := add32 (bigSigma0 s.a) (maj s.a s.b s.c)
  ⟨add32 t1 t2, s.a, s.b, s.c, add32 s.d t1, s.e, s.f, s.g⟩

/-- The compression of one 64-byte chunk into the hash value `s`. -/
def compress (s : State) (chunk : List Byte) : State :=
  let w := words chunk
  let r := (K.zip (w ++ extend 48 w)).foldl round s
  ⟨add32 s.a r.a, add32 s.b r.b, add32 s.c r.c, add32 s.d r.d,
   add32 s.e r.e, add32 s.f r.f, add32 s.g r.g, add32 s.h r.h⟩

/-- The compression of the first `n` chunks of `m`. -/
def blocks : Nat → State → List Byte → State
  | 0, s, _ => s
  | n + 1, s, m => blocks n (compress s (m.take 64)) (m.drop 64)

/-- The four big-endian bytes of a 32-bit word. -/
def wordBytes (x : Nat) : List Byte :=
  [toByte (x >>> 24), toByte (x >>> 16), toByte (x >>> 8), toByte x]

/-- The 32 bytes of the final hash value. -/
def output (s : State) : List Byte :=
  wordBytes s.a ++ wordBytes s.b ++ wordBytes s.c ++ wordBytes s.d ++
  wordBytes s.e ++ wordBytes s.f ++ wordBytes s.g ++ wordBytes s.h

end SHA256

/-- The function `sha256.Sum256`: pad, compress chunk by chunk, emit the hash
value. -/
def sha256 (msg : List Byte) : Digest :=
  let m := SHA256.pad msg
  ⟨SHA256.output (SHA256.blocks (m.length / 64) SHA256.init m),
    by simp [SHA256.output, SHA256.wordBytes]⟩

/-! ## Specification vocabulary -/

/-- The digest `sum256(prepareData(nonce))` as a byte slice. -/
def digestAt (sum256 : List Byte → Digest) (bits : Int) (pow : ProofOfWork) (nonce : Int) :
    List Byte :=
  (sum256 (prepareData bits pow nonce)).val

/-- A block is sealed: its `Hash` is non-empty, re-deriving the digest from
`PrevBlockHash`, `Timestamp`, the difficulty and the recorded `Nonce`
reproduces `Hash`, and `Hash` read as a big-endian unsigned integer is below
the target. -/
def Sealed (sum256 : List Byte → Digest) (bits : Int) (b : Block) : Prop :=
  b.Hash ≠ [] ∧
  digestAt sum256 bits (NewProofOfWork bits b) b.Nonce = b.Hash ∧
  SetBytes b.Hash < (NewProofOfWork bits b).target

/-- The chains the program can build: `NewBlockchain` followed by any number of
successful `AddBlock` calls. -/
inductive Reachable (sum256 : List Byte → Digest) (bits : Int) : BlockChain → Prop
  | genesis (now : Int) : Reachable sum256 bits (NewBlockchain sum256 bits now)
  | add (bc bc1 : BlockChain) (now : Int) (data : List Byte) :
      Reachable sum256 bits bc → AddBlock sum256 bits now bc data = some bc1 →
      Reachable sum256 bits bc1

/-- A sequence of `AddBlock` calls, one per `(clock reading, payload)` pair. -/
def addAll (sum256 : List Byte → Digest) (bits : Int) :
    BlockChain → List (Int × List Byte) → Option BlockChain
  | bc, [] => some bc
  | bc, (now, data) :: rest =>
    match AddBlock sum256 bits now bc data with
    | none => none
    | some bc1 => addAll sum256 bits bc1 rest

/-- A digest function none of whose outputs is below any target of at most
`2 ^ 256 - 1`: every digest is 32 bytes `0xff`. -/
def onesSum (_ : List Byte) : Digest := ⟨List.replicate 32 255, by simp⟩

/-! ## Concrete inputs -/

/-- An unsealed block stamped 2026-11-04 00:00:00 UTC. -/
def draftBlock : Block := ⟨1793750400, genesisData, [], [], 0⟩

/-- A clock reading at which nonce 0 seals the genesis block under SHA-256. -/
def genesisStamp : Int := 1794630303

/-- The SHA-256 digest of the genesis candidate stamped `genesisStamp` at
nonce 0: `00000326a4ef...cb70`. -/
def genesisHash : List Byte :=
  [0, 0, 3, 38, 164, 239, 48, 173, 18, 42, 110, 79, 87, 207, 23, 113,
   87, 164, 115, 208, 166, 229, 169, 8, 218, 38, 22, 63, 18, 87, 203, 112]

/-- The genesis block `NewGenesisBlock` builds at `genesisStamp`. -/
def sealedGenesis : Block := ⟨genesisStamp, genesisData, [], genesisHash, 0⟩

/-- The bytes of the string literal `"Send 1 BTC to Iven"`. -/
def payload1 : List Byte :=
  [83, 101, 110, 100, 32, 49, 32, 66, 84, 67, 32, 116, 111, 32, 73, 118, 101, 110]

/-- A later clock reading, at which the block after `sealedGenesis` is
sealed by nonce 2 and by no smaller nonce. -/
def secondStamp : Int := 1798690235

/-- The SHA-256 digest of the second candidate at nonce 2:
`00000dee4f15...1946`. -/
def secondHash : List Byte :=
  [0, 0, 13, 238, 79, 21, 65, 212, 13, 86, 147, 127, 54, 102, 237, 111,
   161, 176, 147, 77, 119, 204, 63, 196, 182, 115, 223, 11, 191, 55, 25, 70]

/-- The second candidate before sealing. -/
def draftSecond : Block := ⟨secondStamp, payload1, genesisHash, [], 0⟩

/-- The block `AddBlock` appends to the chain of `sealedGenesis` at
`secondStamp`. -/
def sealedSecond : Block := ⟨secondStamp, payload1, genesisHash, secondHash, 2⟩

/-- The chain of the two sealed blocks. -/
def sampleChain : BlockChain := ⟨[sealedGenesis, sealedSecond]⟩

/-- The block `sealedGenesis` with the first byte of its payload changed
(`"Xenesis Block"`), every other field as it was. -/
def tamperedGenesis : Block := { sealedGenesis with Data := 88 :: genesisData.tail }

/-- The 32 bytes `0xff`. -/
def onesHash : List Byte := List.replicate 32 255

/-! ## Vocabulary of the later properties -/

/-- The big-endian unsigned value of a byte string, as a natural number; it is
the value `SetBytes` stores. -/
def unsignedValue (buf : List Byte) : Nat :=
  buf.foldl (fun acc b => acc * 256 + b.val) 0

/-- Decoding of a byte string as a big-endian two's-complement 64-bit integer:
the unsigned value when it is below `2 ^ 63`, else that value less `2 ^ 64`. -/
def decodeInt64 (buf : List Byte) : Int :=
  if SetBytes buf < 2 ^ 63 then SetBytes buf else SetBytes buf - 2 ^ 64

/-- Bit `i` of a byte string, counting from the most significant bit of byte 0:
bit `7 - i % 8` of byte `i / 8`. -/
def digestBit (h : List Byte) (i : Nat) : Bool :=
  (h.getD (i / 8) 0).val.testBit (7 - i % 8)

/-- The loop of `Run` with a counter of the candidates whose digest it
computes: the control flow is that of `runLoop`, and the count goes up by one
at each call of `sum256`. -/
def runLoopCounted (sum256 : List Byte → Digest) (bits : Int) (pow : ProofOfWork) :
    Nat → Int → Digest → Nat → (Int × Digest) × Nat
  | 0, nonce, hash, count => ((nonce, hash), count)
  | fuel + 1, nonce, hash, count =>
    if nonce < maxNonce then
      let data := prepareData bits pow nonce
      let hash1 := sum256 data
      if SetBytes hash1.val < pow.target then
        ((nonce, hash1), count + 1)
      else
        runLoopCounted sum256 bits pow fuel (nonce + 1) hash1 (count + 1)
    else
      ((nonce, hash), count)

/-- The block `sealedGenesis` with its `Hash` overwritten by 32 bytes `0xff`
and its payload replaced by the empty one. -/
def overwrittenGenesis : Block := { sealedGenesis with Hash := onesHash, Data := [] }

/-! ## SHA-256 test vectors -/

set_option maxRecDepth 100000 in
/-- The digests of the empty message and of `"abc"` (FIPS 180-4 examples):
`e3b0c442...b855` and `ba7816bf...15ad`. -/
theorem sha256_test_vectors :
    (sha256 []).val =
      [0xe3, 0xb0, 0xc4, 0x42, 0x98, 0xfc, 0x1c, 0x14, 0x9a, 0xfb, 0xf4, 0xc8, 0x99, 0x6f, 0xb9, 0x24,
       0x27, 0xae, 0x41, 0xe4, 0x64, 0x9b, 0x93, 0x4c, 0xa4, 0x95, 0x99, 0x1b, 0x78, 0x52, 0xb8, 0x55] ∧
    (sha256 [97, 98, 99]).val =
      [0xba, 0x78, 0x16, 0xbf, 0x8f, 0x01, 0xcf, 0xea, 0x41, 0x41, 0x40, 0xde, 0x5d, 0xae, 0x22, 0x23,
       0xb0, 0x03, 0x61, 0xa3, 0x96, 0x17, 0x7a, 0x9c, 0xb4, 0x10, 0xff, 0x61, 0xf2, 0x00, 0x15, 0xad] := by
  decide

/-! ## The search loop -/

theorem runLoop_succ (sum256 : List Byte → Digest) (bits : Int) (pow : ProofOfWork)
    (fuel : Nat) (nonce : Int) (hash : Digest) :
    runLoop sum256 bits pow (fuel + 1) nonce hash =
      if nonce < maxNonce then
        if SetBytes (digestAt sum256 bits pow nonce) < pow.target then
          (nonce, sum256 (prepareData bits pow nonce))
        else
          runLoop sum256 bits pow fuel (nonce + 1) (sum256 (prepareData bits pow nonce))
      else
        (nonce, hash) := rfl

/-- What the loop returns when entered at `nonce ≤ maxNonce` with at least
`maxNonce - nonce` iterations allowed: the returned nonce is the first one from
`nonce` on whose digest is below the target, with that digest; or it is
`maxNonce`, with the digest computed last. -/
theorem runLoop_spec (sum256 : List Byte → Digest) (bits : Int) (pow : ProofOfWork)
    (fuel : Nat) :
    ∀ (nonce : Int) (hash : Digest), (maxNonce - nonce).toNat ≤ fuel → nonce ≤ maxNonce →
      (nonce ≤ (runLoop sum256 bits pow fuel nonce hash).1 ∧
        (runLoop sum256 bits pow fuel nonce hash).1 ≤ maxNonce) ∧
      (∀ m, nonce ≤ m → m < (runLoop sum256 bits pow fuel nonce hash).1 →
        ¬ SetBytes (digestAt sum256 bits pow m) < pow.target) ∧
      (((runLoop sum256 bits pow fuel nonce hash).1 < maxNonce ∧
          SetBytes (digestAt sum256 bits pow (runLoop sum256 bits pow fuel nonce hash).1) <
            pow.target ∧
          (runLoop sum256 bits pow fuel nonce hash).2 =
            sum256 (prepareData bits pow (runLoop sum256 bits pow fuel nonce hash).1)) ∨
        ((runLoop sum256 bits pow fuel nonce hash).1 = maxNonce ∧
          (nonce < maxNonce → (runLoop sum256 bits pow fuel nonce hash).2 =
            sum256 (prepareData bits pow (maxNonce - 1))) ∧
          (nonce = maxNonce → (runLoop sum256 bits pow fuel nonce hash).2 = hash))) := by
  have hexit : ∀ (nonce : Int) (hash : Digest), nonce = maxNonce →
      (nonce ≤ (nonce, hash).1 ∧ (nonce, hash).1 ≤ maxNonce) ∧
      (∀ m, nonce ≤ m → m < (nonce, hash).1 →
        ¬ SetBytes (digestAt sum256 bits pow m) < pow.target) ∧
      (((nonce, hash).1 < maxNonce ∧
          SetBytes (digestAt sum256 bits pow (nonce, hash).1) < pow.target ∧
          (nonce, hash).2 = sum256 (prepareData bits pow (nonce, hash).1)) ∨
        ((nonce, hash).1 = maxNonce ∧
          (nonce < maxNonce → (nonce, hash).2 = sum256 (prepareData bits pow (maxNonce - 1))) ∧
          (nonce = maxNonce → (nonce, hash).2 = hash))) := by
    intro nonce hash hn
    refine ⟨⟨le_refl _, le_of_eq hn⟩, ?_, Or.inr ⟨hn, ?_, fun _ => rfl⟩⟩
    · intro m h1 h2
      exact absurd h2 (by simp only []; omega)
    · intro h
      exact absurd h (by omega)
  induction fuel with
  | zero =>
    intro nonce hash hk hle
    exact hexit nonce hash (by omega)
  | succ fuel ih =>
    intro nonce hash hk hle
    rw [runLoop_succ]
    by_cases hlt : nonce < maxNonce
    · rw [if_pos hlt]
      by_cases hq : SetBytes (digestAt sum256 bits pow nonce) < pow.target
      · rw [if_pos hq]
        refine ⟨⟨le_refl _, hle⟩, ?_, Or.inl ⟨hlt, hq, rfl⟩⟩
        intro m h1 h2
        exact absurd h2 (by simp only []; omega)
      · rw [if_neg hq]
        have hk1 : (maxNonce - (nonce + 1)).toNat ≤ fuel := by omega
        have hle1 : nonce + 1 ≤ maxNonce := by omega
        obtain ⟨⟨hlo, hhi⟩, hmin, hres⟩ :=
          ih (nonce + 1) (sum256 (prepareData bits pow nonce)) hk1 hle1
        refine ⟨⟨by omega, hhi⟩, ?_, ?_⟩
        · intro m h1 h2
          by_cases hm : m = nonce
          · rw [hm]; exact hq
          · exact hmin m (by omega) h2
        · rcases hres with hfound | ⟨hmax, hlast, hkeep⟩
          · exact Or.inl hfound
          · refine Or.inr ⟨hmax, fun _ => ?_, fun h => absurd h (by omega)⟩
            by_cases hend : nonce + 1 < maxNonce
            · exact hlast hend
            · have hn : nonce + 1 = maxNonce := by omega
              rw [hkeep hn]
              have : nonce = maxNonce - 1 := by omega
              rw [this]
    · rw [if_neg hlt]
      exact hexit nonce hash (by omega)

/-- The iterations `Run` allows are never used up: once the allowance covers
the distance to `maxNonce`, a larger one gives the same result. -/
theorem runLoop_fuel (sum256 : List Byte → Digest) (bits : Int) (pow : ProofOfWork)
    (fuel : Nat) :
    ∀ (extra : Nat) (nonce : Int) (hash : Digest), (maxNonce - nonce).toNat ≤ fuel →
      runLoop sum256 bits pow (fuel + extra) nonce hash =
        runLoop sum256 bits pow fuel nonce hash := by
  induction fuel with
  | zero =>
    intro extra nonce hash hk
    have hge : ¬ nonce < maxNonce := by omega
    cases extra with
    | zero => rfl
    | succ e =>
      rw [Nat.zero_add, runLoop_succ, if_neg hge]
      rfl
  | succ fuel ih =>
    intro extra nonce hash hk
    have hsucc : fuel + 1 + extra = (fuel + extra) + 1 := by omega
    rw [hsucc, runLoop_succ, runLoop_succ]
    by_cases hlt : nonce < maxNonce
    · rw [if_pos hlt, if_pos hlt]
      by_cases hq : SetBytes (digestAt sum256 bits pow nonce) < pow.target
      · rw [if_pos hq, if_pos hq]
      · rw [if_neg hq, if_neg hq]
        exact ih extra (nonce + 1) _ (by omega)
    · rw [if_neg hlt, if_neg hlt]

theorem maxNonce_pos : (0 : Int) < maxNonce := by decide

/-- The result of `Run`, in the two cases of the search. -/
theorem Run_spec (sum256 : List Byte → Digest) (bits : Int) (pow : ProofOfWork) :
    (0 ≤ (Run sum256 bits pow).1 ∧ (Run sum256 bits pow).1 ≤ maxNonce) ∧
    (∀ m, 0 ≤ m → m < (Run sum256 bits pow).1 →
      ¬ SetBytes (digestAt sum256 bits pow m) < pow.target) ∧
    (((Run sum256 bits pow).1 < maxNonce ∧
        SetBytes (digestAt sum256 bits pow (Run sum256 bits pow).1) < pow.target ∧
        (Run sum256 bits pow).2 = digestAt sum256 bits pow (Run sum256 bits pow).1) ∨
      ((Run sum256 bits pow).1 = maxNonce ∧
        (Run sum256 bits pow).2 = digestAt sum256 bits pow (maxNonce - 1))) := by
  obtain ⟨hr, hmin, hres⟩ :=
    runLoop_spec sum256 bits pow maxNonce.toNat 0 zeroHash (by simp) (le_of_lt maxNonce_pos)
  refine ⟨hr, hmin, ?_⟩
  rcases hres with ⟨h1, h2, h3⟩ | ⟨h1, h2, _⟩
  · exact Or.inl ⟨h1, h2, congrArg Subtype.val h3⟩
  · exact Or.inr ⟨h1, congrArg Subtype.val (h2 maxNonce_pos)⟩

/-- If some nonce in the searched range qualifies, `Run` returns the least
qualifying nonce with its digest. -/
theorem Run_found (sum256 : List Byte → Digest) (bits : Int) (pow : ProofOfWork)
    (h : ∃ n, 0 ≤ n ∧ n < maxNonce ∧ SetBytes (digestAt sum256 bits pow n) < pow.target) :
    (0 ≤ (Run sum256 bits pow).1 ∧ (Run sum256 bits pow).1 < maxNonce) ∧
    SetBytes (digestAt sum256 bits pow (Run sum256 bits pow).1) < pow.target ∧
    (Run sum256 bits pow).2 = digestAt sum256 bits pow (Run sum256 bits pow).1 ∧
    (∀ m, 0 ≤ m → m < (Run sum256 bits pow).1 →
      ¬ SetBytes (digestAt sum256 bits pow m) < pow.target) := by
  obtain ⟨⟨h0, _⟩, hmin, hres⟩ := Run_spec sum256 bits pow
  rcases hres with ⟨h1, h2, h3⟩ | ⟨h1, _⟩
  · exact ⟨⟨h0, h1⟩, h2, h3, hmin⟩
  · obtain ⟨n, hn0, hn1, hnq⟩ := h
    exact absurd hnq (hmin n hn0 (by omega))

/-- If no nonce in the searched range qualifies, `Run` returns `maxNonce` with
the digest of the last candidate. -/
theorem Run_exhausted (sum256 : List Byte → Digest) (bits : Int) (pow : ProofOfWork)
    (h : ∀ n, 0 ≤ n → n < maxNonce → ¬ SetBytes (digestAt sum256 bits pow n) < pow.target) :
    Run sum256 bits pow = (maxNonce, digestAt sum256 bits pow (maxNonce - 1)) := by
  obtain ⟨⟨h0, _⟩, _, hres⟩ := Run_spec sum256 bits pow
  rcases hres with ⟨h1, h2, _⟩ | ⟨h1, h2⟩
  · exact absurd h2 (h _ h0 h1)
  · exact Prod.ext h1 h2

/-- The first qualifying nonce determines the result of `Run`. -/
theorem Run_eq_of_first (sum256 : List Byte → Digest) (bits : Int) (pow : ProofOfWork)
    (n : Int) (h0 : 0 ≤ n) (h1 : n < maxNonce)
    (hq : SetBytes (digestAt sum256 bits pow n) < pow.target)
    (hmin : ∀ m, 0 ≤ m → m < n → ¬ SetBytes (digestAt sum256 bits pow m) < pow.target) :
    Run sum256 bits pow = (n, digestAt sum256 bits pow n) := by
  obtain ⟨⟨hr0, _⟩, hrq, hrd, hrmin⟩ := Run_found sum256 bits pow ⟨n, h0, h1, hq⟩
  have hn : (Run sum256 bits pow).1 = n := by
    rcases lt_trichotomy (Run sum256 bits pow).1 n with hlt | heq | hgt
    · exact absurd hrq (hmin _ hr0 hlt)
    · exact heq
    · exact absurd hq (hrmin n h0 hgt)
  refine Prod.ext hn ?_
  rw [hrd, hn]

/-- The bytes `prepareData` joins depend on the block only through
`PrevBlockHash` and `Timestamp`. -/
theorem prepareData_congr (bits : Int) (p q : ProofOfWork)
    (hp : p.block.PrevBlockHash = q.block.PrevBlockHash)
    (ht : p.block.Timestamp = q.block.Timestamp) (nonce : Int) :
    prepareData bits p nonce = prepareData bits q nonce := by
  simp only [prepareData, hp, ht]

theorem digestAt_congr (sum256 : List Byte → Digest) (bits : Int) (p q : ProofOfWork)
    (hp : p.block.PrevBlockHash = q.block.PrevBlockHash)
    (ht : p.block.Timestamp = q.block.Timestamp) (nonce : Int) :
    digestAt sum256 bits p nonce = digestAt sum256 bits q nonce := by
  simp only [digestAt, prepareData_congr bits p q hp ht]

theorem NewBlock_eq (sum256 : List Byte → Digest) (bits : Int) (now : Int)
    (data prev : List Byte) :
    NewBlock sum256 bits now data prev =
      ⟨now, data, prev, (Run sum256 bits (NewProofOfWork bits ⟨now, data, prev, [], 0⟩)).2,
        (Run sum256 bits (NewProofOfWork bits ⟨now, data, prev, [], 0⟩)).1⟩ := rfl

theorem digest_length (sum256 : List Byte → Digest) (bits : Int) (pow : ProofOfWork) (n : Int) :
    (digestAt sum256 bits pow n).length = 32 :=
  (sum256 (prepareData bits pow n)).property

theorem Run_hash_length (sum256 : List Byte → Digest) (bits : Int) (pow : ProofOfWork) :
    (Run sum256 bits pow).2.length = 32 :=
  (runLoop sum256 bits pow maxNonce.toNat 0 zeroHash).2.property

theorem NewBlock_Hash_ne_nil (sum256 : List Byte → Digest) (bits : Int) (now : Int)
    (data prev : List Byte) : (NewBlock sum256 bits now data prev).Hash ≠ [] := by
  intro hnil
  have hl := Run_hash_length sum256 bits (NewProofOfWork bits ⟨now, data, prev, [], 0⟩)
  have hh : (NewBlock sum256 bits now data prev).Hash =
      (Run sum256 bits (NewProofOfWork bits ⟨now, data, prev, [], 0⟩)).2 := rfl
  rw [← hh, hnil] at hl
  simp at hl

/-- A block built by `NewBlock` is sealed when its search succeeds. -/
theorem NewBlock_sealed (sum256 : List Byte → Digest) (bits : Int) (now : Int)
    (data prev : List Byte)
    (h : ∃ n, 0 ≤ n ∧ n < maxNonce ∧
      SetBytes (digestAt sum256 bits (NewProofOfWork bits ⟨now, data, prev, [], 0⟩) n) <
        (NewProofOfWork bits ⟨now, data, prev, [], 0⟩).target) :
    Sealed sum256 bits (NewBlock sum256 bits now data prev) := by
  obtain ⟨_, hq, hd, _⟩ := Run_found sum256 bits _ h
  have hc : ∀ n, digestAt sum256 bits (NewProofOfWork bits (NewBlock sum256 bits now data prev)) n =
      digestAt sum256 bits (NewProofOfWork bits ⟨now, data, prev, [], 0⟩) n :=
    fun n => digestAt_congr sum256 bits _ _ rfl rfl n
  refine ⟨NewBlock_Hash_ne_nil sum256 bits now data prev, ?_, ?_⟩
  · rw [hc]
    exact hd.symm
  · show SetBytes (Run sum256 bits (NewProofOfWork bits ⟨now, data, prev, [], 0⟩)).2 <
      (NewProofOfWork bits ⟨now, data, prev, [], 0⟩).target
    rw [hd]
    exact hq

/-- A block built by `NewBlock`, with the success of its search stated on the
block itself. -/
theorem NewBlock_sealed_of_found (sum256 : List Byte → Digest) (bits : Int) (now : Int)
    (data prev : List Byte)
    (h : ∃ n, 0 ≤ n ∧ n < maxNonce ∧
      SetBytes (sum256 (prepareData bits
          (NewProofOfWork bits (NewBlock sum256 bits now data prev)) n)).val <
        (NewProofOfWork bits (NewBlock sum256 bits now data prev)).target) :
    (sum256 (prepareData bits (NewProofOfWork bits (NewBlock sum256 bits now data prev))
        (NewBlock sum256 bits now data prev).Nonce)).val =
      (NewBlock sum256 bits now data prev).Hash ∧
    SetBytes (NewBlock sum256 bits now data prev).Hash <
      (NewProofOfWork bits (NewBlock sum256 bits now data prev)).target := by
  obtain ⟨n, h0, h1, hq⟩ := h
  have hc := digestAt_congr sum256 bits
    (NewProofOfWork bits (NewBlock sum256 bits now data prev))
    (NewProofOfWork bits ⟨now, data, prev, [], 0⟩) rfl rfl n
  have hq1 : SetBytes (digestAt sum256 bits
      (NewProofOfWork bits (NewBlock sum256 bits now data prev)) n) <
      (NewProofOfWork bits ⟨now, data, prev, [], 0⟩).target := hq
  rw [hc] at hq1
  have hs := NewBlock_sealed sum256 bits now data prev ⟨n, h0, h1, hq1⟩
  exact ⟨hs.2.1, hs.2.2⟩

/-- For a sealed block `Validate` returns true. -/
theorem Validate_of_Sealed (sum256 : List Byte → Digest) (bits : Int) (b : Block)
    (h : Sealed sum256 bits b) : Validate sum256 bits (NewProofOfWork bits b) = true := by
  obtain ⟨_, hd, hlt⟩ := h
  unfold Validate
  rw [decide_eq_true_iff]
  show SetBytes (digestAt sum256 bits (NewProofOfWork bits b) b.Nonce) <
    (NewProofOfWork bits b).target
  rw [hd]
  exact hlt

/-- A block built by `NewBlock` is sealed only when its search found a nonce:
after an exhausted search the stored digest is that of the candidate
`maxNonce - 1`, which is not below the target. -/
theorem found_of_NewBlock_Sealed (sum256 : List Byte → Digest) (bits : Int) (now : Int)
    (data prev : List Byte) (h : Sealed sum256 bits (NewBlock sum256 bits now data prev)) :
    ∃ n, 0 ≤ n ∧ n < maxNonce ∧
      SetBytes (digestAt sum256 bits (NewProofOfWork bits ⟨now, data, prev, [], 0⟩) n) <
        (NewProofOfWork bits ⟨now, data, prev, [], 0⟩).target := by
  by_contra hnone
  have hall : ∀ n, 0 ≤ n → n < maxNonce →
      ¬ SetBytes (digestAt sum256 bits (NewProofOfWork bits ⟨now, data, prev, [], 0⟩) n) <
        (NewProofOfWork bits ⟨now, data, prev, [], 0⟩).target :=
    fun n h0 h1 hq => hnone ⟨n, h0, h1, hq⟩
  have hrun := Run_exhausted sum256 bits (NewProofOfWork bits ⟨now, data, prev, [], 0⟩) hall
  have hH : (NewBlock sum256 bits now data prev).Hash =
      (Run sum256 bits (NewProofOfWork bits ⟨now, data, prev, [], 0⟩)).2 := rfl
  rw [hrun] at hH
  have hlt : SetBytes (NewBlock sum256 bits now data prev).Hash <
      (NewProofOfWork bits ⟨now, data, prev, [], 0⟩).target := h.2.2
  rw [hH] at hlt
  exact hall (maxNonce - 1) (by have := maxNonce_pos; omega) (by omega) hlt

set_option maxRecDepth 100000 in
/-- Under the all-ones digest no nonce qualifies for a target built by
`NewProofOfWork` at the configured difficulty. -/
theorem onesSum_never_qualifies (b : Block) (n : Int) :
    ¬ SetBytes (digestAt onesSum targetBits (NewProofOfWork targetBits b) n) <
      (NewProofOfWork targetBits b).target := by
  have h : ¬ SetBytes (List.replicate 32 (255 : Byte)) < Lsh 1 (toUint (256 - targetBits)) := by
    decide
  exact h

/-! ## Sealing search: `Run` -/

/-- C1: for every block and the target built by `NewProofOfWork`, if some
nonce `n` with `0 ≤ n < maxNonce` has its digest, read as a big-endian
unsigned integer, strictly below the target, then `Run` returns a pair
`(nonce, digest)` with `digest = sum256(prepareData(nonce))` and `digest`
strictly below the target. -/
theorem Run_returns_qualifying_pair (sum256 : List Byte → Digest) (b : Block)
    (h : ∃ n, 0 ≤ n ∧ n < maxNonce ∧
      SetBytes (digestAt sum256 targetBits (NewProofOfWork targetBits b) n) <
        (NewProofOfWork targetBits b).target) :
    (Run sum256 targetBits (NewProofOfWork targetBits b)).2 =
        (sum256 (prepareData targetBits (NewProofOfWork targetBits b)
          (Run sum256 targetBits (NewProofOfWork targetBits b)).1)).val ∧
      SetBytes (Run sum256 targetBits (NewProofOfWork targetBits b)).2 <
        (NewProofOfWork targetBits b).target := by
  obtain ⟨_, hq, hd, _⟩ := Run_found sum256 targetBits (NewProofOfWork targetBits b) h
  refine ⟨hd, ?_⟩
  rw [hd]
  exact hq

set_option maxRecDepth 100000 in
/-- C1 at the block stamped 1793750400 under SHA-256, where nonce 32775
qualifies. -/
theorem Run_returns_qualifying_pair_witness :
    (∃ n, 0 ≤ n ∧ n < maxNonce ∧
      SetBytes (digestAt sha256 targetBits (NewProofOfWork targetBits draftBlock) n) <
        (NewProofOfWork targetBits draftBlock).target) ∧
    ((Run sha256 targetBits (NewProofOfWork targetBits draftBlock)).2 =
        (sha256 (prepareData targetBits (NewProofOfWork targetBits draftBlock)
          (Run sha256 targetBits (NewProofOfWork targetBits draftBlock)).1)).val ∧
      SetBytes (Run sha256 targetBits (NewProofOfWork targetBits draftBlock)).2 <
        (NewProofOfWork targetBits draftBlock).target) :=
  ⟨⟨32775, by decide⟩,
   Run_returns_qualifying_pair sha256 draftBlock ⟨32775, by decide⟩⟩

/-! ## Evaluation at the concrete inputs -/

set_option maxRecDepth 100000 in
theorem NewGenesisBlock_genesisStamp :
    NewGenesisBlock sha256 targetBits genesisStamp = sealedGenesis := by
  unfold NewGenesisBlock
  rw [NewBlock_eq, Run_eq_of_first sha256 targetBits _ 0 (by decide) (by decide) (by decide)
    (fun m h0 h1 => absurd h1 (by omega))]
  decide

set_option maxRecDepth 100000 in
theorem NewBlock_secondStamp :
    NewBlock sha256 targetBits secondStamp payload1 genesisHash = sealedSecond := by
  have hmin : ∀ m : Int, 0 ≤ m → m < 2 →
      ¬ SetBytes (digestAt sha256 targetBits (NewProofOfWork targetBits draftSecond) m) <
        (NewProofOfWork targetBits draftSecond).target := by
    intro m h0 h2
    have hm : m = 0 ∨ m = 1 := by omega
    rcases hm with rfl | rfl <;> decide
  have hrun := Run_eq_of_first sha256 targetBits (NewProofOfWork targetBits draftSecond) 2
    (by decide) (by decide) (by decide) hmin
  rw [NewBlock_eq]
  show (⟨secondStamp, payload1, genesisHash,
    (Run sha256 targetBits (NewProofOfWork targetBits draftSecond)).2,
    (Run sha256 targetBits (NewProofOfWork targetBits draftSecond)).1⟩ : Block) = sealedSecond
  rw [hrun]
  decide

theorem NewBlockchain_genesisStamp :
    NewBlockchain sha256 targetBits genesisStamp = ⟨[sealedGenesis]⟩ := by
  unfold NewBlockchain
  rw [NewGenesisBlock_genesisStamp]

theorem AddBlock_secondStamp :
    AddBlock sha256 targetBits secondStamp ⟨[sealedGenesis]⟩ payload1 = some sampleChain := by
  show some (BlockChain.mk ([sealedGenesis] ++
    [NewBlock sha256 targetBits secondStamp payload1 genesisHash])) = some sampleChain
  rw [NewBlock_secondStamp]
  rfl

theorem sampleChain_reachable : Reachable sha256 targetBits sampleChain := by
  refine Reachable.add ⟨[sealedGenesis]⟩ sampleChain secondStamp payload1 ?_ AddBlock_secondStamp
  rw [← NewBlockchain_genesisStamp]
  exact Reachable.genesis genesisStamp

/-- C9: under the hypothesis that some nonce in `[0, maxNonce)` qualifies, the
nonce `Run` returns qualifies and every `n` with `0 ≤ n` below it has a digest
greater than or equal to the target: it is the least qualifying nonce. -/
theorem Run_returns_least_nonce (sum256 : List Byte → Digest) (b : Block)
    (h : ∃ n, 0 ≤ n ∧ n < maxNonce ∧
      SetBytes (digestAt sum256 targetBits (NewProofOfWork targetBits b) n) <
        (NewProofOfWork targetBits b).target) :
    (0 ≤ (Run sum256 targetBits (NewProofOfWork targetBits b)).1 ∧
      (Run sum256 targetBits (NewProofOfWork targetBits b)).1 < maxNonce) ∧
    SetBytes (sum256 (prepareData targetBits (NewProofOfWork targetBits b)
        (Run sum256 targetBits (NewProofOfWork targetBits b)).1)).val <
      (NewProofOfWork targetBits b).target ∧
    (∀ n, 0 ≤ n → n < (Run sum256 targetBits (NewProofOfWork targetBits b)).1 →
      (NewProofOfWork targetBits b).target ≤
        SetBytes (sum256 (prepareData targetBits (NewProofOfWork targetBits b) n)).val) := by
  obtain ⟨hr, hq, _, hmin⟩ := Run_found sum256 targetBits (NewProofOfWork targetBits b) h
  exact ⟨hr, hq, fun n h0 h1 => not_lt.mp (hmin n h0 h1)⟩

set_option maxRecDepth 100000 in
/-- C9 at the second candidate under SHA-256, which nonce 2 seals. -/
theorem Run_returns_least_nonce_witness :
    (∃ n, 0 ≤ n ∧ n < maxNonce ∧
      SetBytes (digestAt sha256 targetBits (NewProofOfWork targetBits draftSecond) n) <
        (NewProofOfWork targetBits draftSecond).target) ∧
    ((0 ≤ (Run sha256 targetBits (NewProofOfWork targetBits draftSecond)).1 ∧
      (Run sha256 targetBits (NewProofOfWork targetBits draftSecond)).1 < maxNonce) ∧
    SetBytes (sha256 (prepareData targetBits (NewProofOfWork targetBits draftSecond)
        (Run sha256 targetBits (NewProofOfWork targetBits draftSecond)).1)).val <
      (NewProofOfWork targetBits draftSecond).target ∧
    (∀ n, 0 ≤ n → n < (Run sha256 targetBits (NewProofOfWork targetBits draftSecond)).1 →
      (NewProofOfWork targetBits draftSecond).target ≤
        SetBytes (sha256 (prepareData targetBits (NewProofOfWork targetBits draftSecond) n)).val)) :=
  ⟨⟨2, by decide⟩, Run_returns_least_nonce sha256 draftSecond ⟨2, by decide⟩⟩

/-! ## Validation of sealed blocks -/

/-- C2: for every sealed block produced by `NewBlock`, `Validate` on
`NewProofOfWork(block)` returns true.  A block `NewBlock` produces is sealed
exactly when its search found a nonce (`NewBlock_sealed` is the converse of
the second part): some nonce in `[0, maxNonce)` has a digest below the
target. -/
theorem Validate_sealed_NewBlock (sum256 : List Byte → Digest) (now : Int)
    (data prev : List Byte)
    (h : Sealed sum256 targetBits (NewBlock sum256 targetBits now data prev)) :
    Validate sum256 targetBits
        (NewProofOfWork targetBits (NewBlock sum256 targetBits now data prev)) = true ∧
      ∃ n, 0 ≤ n ∧ n < maxNonce ∧
        SetBytes (digestAt sum256 targetBits
            (NewProofOfWork targetBits ⟨now, data, prev, [], 0⟩) n) <
          (NewProofOfWork targetBits ⟨now, data, prev, [], 0⟩).target :=
  ⟨Validate_of_Sealed sum256 targetBits _ h,
   found_of_NewBlock_Sealed sum256 targetBits now data prev h⟩

set_option maxRecDepth 100000 in
/-- C2 at the genesis block stamped `genesisStamp` under SHA-256, which nonce 0
seals. -/
theorem Validate_sealed_NewBlock_witness :
    Sealed sha256 targetBits (NewBlock sha256 targetBits genesisStamp genesisData []) ∧
    (Validate sha256 targetBits
        (NewProofOfWork targetBits (NewBlock sha256 targetBits genesisStamp genesisData [])) =
          true ∧
      ∃ n, 0 ≤ n ∧ n < maxNonce ∧
        SetBytes (digestAt sha256 targetBits
            (NewProofOfWork targetBits ⟨genesisStamp, genesisData, [], [], 0⟩) n) <
          (NewProofOfWork targetBits ⟨genesisStamp, genesisData, [], [], 0⟩).target) :=
  ⟨NewBlock_sealed sha256 targetBits genesisStamp genesisData [] ⟨0, by decide⟩,
   Validate_sealed_NewBlock sha256 genesisStamp genesisData []
     (NewBlock_sealed sha256 targetBits genesisStamp genesisData [] ⟨0, by decide⟩)⟩

/-! ## Exhaustion of the nonce range -/

/-- C3, as the code has it: when no nonce in `[0, maxNonce)` yields a digest
below the target, `Run` returns the ordinary pair of `maxNonce` and the digest
of the last candidate `maxNonce - 1`, and `NewBlock` stores that pair in the
block's `Nonce` and `Hash`. -/
theorem Run_exhaustion_returns_pair (sum256 : List Byte → Digest) (bits : Int) (now : Int)
    (data prev : List Byte)
    (h : ∀ n, 0 ≤ n → n < maxNonce →
      ¬ SetBytes (digestAt sum256 bits (NewProofOfWork bits ⟨now, data, prev, [], 0⟩) n) <
        (NewProofOfWork bits ⟨now, data, prev, [], 0⟩).target) :
    Run sum256 bits (NewProofOfWork bits ⟨now, data, prev, [], 0⟩) =
        (maxNonce,
          (sum256 (prepareData bits (NewProofOfWork bits ⟨now, data, prev, [], 0⟩)
            (maxNonce - 1))).val) ∧
      NewBlock sum256 bits now data prev =
        ⟨now, data, prev,
          (sum256 (prepareData bits (NewProofOfWork bits ⟨now, data, prev, [], 0⟩)
            (maxNonce - 1))).val, maxNonce⟩ := by
  have hrun := Run_exhausted sum256 bits (NewProofOfWork bits ⟨now, data, prev, [], 0⟩) h
  refine ⟨hrun, ?_⟩
  rw [NewBlock_eq, hrun]
  rfl

/-- C3 as amended, at the all-ones digest and the configured difficulty. -/
theorem Run_exhaustion_returns_pair_witness :
    (∀ n, 0 ≤ n → n < maxNonce →
      ¬ SetBytes (digestAt onesSum targetBits
          (NewProofOfWork targetBits ⟨0, genesisData, [], [], 0⟩) n) <
        (NewProofOfWork targetBits ⟨0, genesisData, [], [], 0⟩).target) ∧
    (Run onesSum targetBits (NewProofOfWork targetBits ⟨0, genesisData, [], [], 0⟩) =
        (maxNonce, onesHash) ∧
      NewBlock onesSum targetBits 0 genesisData [] =
        ⟨0, genesisData, [], onesHash, maxNonce⟩) :=
  ⟨fun n _ _ => onesSum_never_qualifies _ n,
   Run_exhaustion_returns_pair onesSum targetBits 0 genesisData []
     (fun n _ _ => onesSum_never_qualifies _ n)⟩

set_option maxRecDepth 100000 in
/-- C3 as stated fails.  Under the all-ones digest no nonce qualifies, yet
`Run` hands back an ordinary pair and `NewBlock` stores it in the block; and
under SHA-256 the search of a `ProofOfWork` whose target is 0 ends the same
way, with the digest `fb2758cb...43e2` of the candidate `maxNonce - 1`. -/
theorem Run_exhaustion_not_signalled :
    ((∀ n, 0 ≤ n → n < maxNonce →
        ¬ SetBytes (digestAt onesSum targetBits
            (NewProofOfWork targetBits ⟨1793750400, genesisData, [], [], 0⟩) n) <
          (NewProofOfWork targetBits ⟨1793750400, genesisData, [], [], 0⟩).target) ∧
      Run onesSum targetBits (NewProofOfWork targetBits ⟨1793750400, genesisData, [], [], 0⟩) =
        (maxNonce, onesHash) ∧
      NewBlock onesSum targetBits 1793750400 genesisData [] =
        ⟨1793750400, genesisData, [], onesHash, maxNonce⟩) ∧
    ((∀ n, 0 ≤ n → n < maxNonce →
        ¬ SetBytes (digestAt sha256 targetBits ⟨draftBlock, 0⟩ n) < 0) ∧
      Run sha256 targetBits ⟨draftBlock, 0⟩ =
        (maxNonce,
          [251, 39, 88, 203, 186, 38, 41, 145, 155, 123, 104, 254, 70, 216, 119, 135,
           185, 51, 8, 111, 141, 218, 92, 29, 85, 187, 255, 171, 116, 58, 67, 226])) := by
  have hones : ∀ n, 0 ≤ n → n < maxNonce →
      ¬ SetBytes (digestAt onesSum targetBits
          (NewProofOfWork targetBits ⟨1793750400, genesisData, [], [], 0⟩) n) <
        (NewProofOfWork targetBits ⟨1793750400, genesisData, [], [], 0⟩).target :=
    fun n _ _ => onesSum_never_qualifies _ n
  have hrun := Run_exhausted onesSum targetBits _ hones
  have hzero : ∀ n, 0 ≤ n → n < maxNonce →
      ¬ SetBytes (digestAt sha256 targetBits ⟨draftBlock, 0⟩ n) < 0 := by
    intro n _ _
    unfold SetBytes
    exact not_lt.mpr (Int.ofNat_nonneg _)
  refine ⟨⟨hones, hrun, ?_⟩, hzero, ?_⟩
  · rw [NewBlock_eq, hrun]
    rfl
  · rw [Run_exhausted sha256 targetBits ⟨draftBlock, 0⟩ hzero]
    decide

/-! ## Payload tampering -/

set_option maxRecDepth 100000 in
/-- C4 at a failing input: the genesis block sealed at `genesisStamp` under
SHA-256 is sealed; after its payload is changed, with `Hash` left as it was,
the digest recomputed from the block's fields with the recorded nonce still
equals the stored `Hash`. -/
theorem payload_tamper_keeps_digest :
    NewGenesisBlock sha256 targetBits genesisStamp = sealedGenesis ∧
    Sealed sha256 targetBits sealedGenesis ∧
    tamperedGenesis.Data ≠ sealedGenesis.Data ∧
    tamperedGenesis.Hash = sealedGenesis.Hash ∧
    (sha256 (prepareData targetBits (NewProofOfWork targetBits tamperedGenesis)
      tamperedGenesis.Nonce)).val = tamperedGenesis.Hash :=
  ⟨NewGenesisBlock_genesisStamp, ⟨by decide, by decide, by decide⟩, by decide, rfl, by decide⟩

/-! ## The chain -/

theorem AddBlock_eq_some (sum256 : List Byte → Digest) (bits : Int) (now : Int)
    (bc bc1 : BlockChain) (data : List Byte)
    (h : AddBlock sum256 bits now bc data = some bc1) :
    ∃ last, bc.blocks.getLast? = some last ∧
      bc1 = ⟨bc.blocks ++ [NewBlock sum256 bits now data last.Hash]⟩ := by
  unfold AddBlock at h
  cases hl : bc.blocks.getLast? with
  | none => rw [hl] at h; exact absurd h (by simp)
  | some last =>
    rw [hl] at h
    exact ⟨last, rfl, (Option.some.inj h).symm⟩

theorem AddBlock_of_getLast? (sum256 : List Byte → Digest) (bits : Int) (now : Int)
    (bc : BlockChain) (data : List Byte) (last : Block)
    (h : bc.blocks.getLast? = some last) :
    AddBlock sum256 bits now bc data =
      some ⟨bc.blocks ++ [NewBlock sum256 bits now data last.Hash]⟩ := by
  unfold AddBlock
  rw [h]

theorem getLast?_of_ne_nil (l : List Block) (h : l ≠ []) : ∃ last, l.getLast? = some last := by
  cases hl : l.getLast? with
  | none => exact absurd (List.getLast?_eq_none_iff.mp hl) h
  | some last => exact ⟨last, rfl⟩

/-- Every reachable chain has at least one block. -/
theorem Reachable_ne_nil (sum256 : List Byte → Digest) (bits : Int) (bc : BlockChain)
    (hr : Reachable sum256 bits bc) : bc.blocks ≠ [] := by
  cases hr with
  | genesis now => simp [NewBlockchain]
  | add bc0 _ now data _ hadd =>
    obtain ⟨last, _, rfl⟩ := AddBlock_eq_some sum256 bits now bc0 bc data hadd
    simp

/-- Every block of a reachable chain was built by `NewBlock`. -/
theorem Reachable_mem (sum256 : List Byte → Digest) (bits : Int) (bc : BlockChain)
    (hr : Reachable sum256 bits bc) :
    ∀ b ∈ bc.blocks, ∃ now data prev, b = NewBlock sum256 bits now data prev := by
  induction hr with
  | genesis now =>
    intro b hb
    simp only [NewBlockchain, List.mem_singleton] at hb
    exact ⟨now, genesisData, [], hb⟩
  | add bc0 bc1 now data _ hadd ih =>
    obtain ⟨last, _, rfl⟩ := AddBlock_eq_some sum256 bits now bc0 bc1 data hadd
    intro b hb
    simp only [List.mem_append, List.mem_singleton] at hb
    rcases hb with hb | hb
    · exact ih b hb
    · exact ⟨now, data, last.Hash, hb⟩

/-- Linkage of a reachable chain, position by position. -/
theorem Reachable_linked (sum256 : List Byte → Digest) (bits : Int) (bc : BlockChain)
    (hr : Reachable sum256 bits bc) :
    ∀ (i : Nat) (b p : Block), bc.blocks[i + 1]? = some b → bc.blocks[i]? = some p →
      b.PrevBlockHash = p.Hash := by
  induction hr with
  | genesis now =>
    intro i b p hb _
    simp [NewBlockchain] at hb
  | add bc0 bc1 now data _ hadd ih =>
    obtain ⟨last, hlast, rfl⟩ := AddBlock_eq_some sum256 bits now bc0 bc1 data hadd
    intro i b p hb hp
    simp only [] at hb hp
    rcases Nat.lt_trichotomy (i + 1) bc0.blocks.length with hlt | heq | hgt
    · rw [List.getElem?_append_left hlt] at hb
      rw [List.getElem?_append_left (by omega)] at hp
      exact ih i b p hb hp
    · rw [List.getElem?_append_right (by omega)] at hb
      rw [List.getElem?_append_left (by omega)] at hp
      have hi : i = bc0.blocks.length - 1 := by omega
      rw [hi, ← List.getLast?_eq_getElem?, hlast] at hp
      have hidx : i + 1 - bc0.blocks.length = 0 := by omega
      rw [hidx] at hb
      simp only [List.getElem?_cons_zero, Option.some.injEq] at hb hp
      rw [← hb, ← hp]
      rfl
    · rw [List.getElem?_append_right (by omega)] at hb
      have hidx : i + 1 - bc0.blocks.length = (i - bc0.blocks.length) + 1 := by omega
      rw [hidx] at hb
      simp at hb

/-- A run of `AddBlock` calls on a non-empty chain succeeds, adds one block
per call and keeps the first block. -/
theorem addAll_spec (sum256 : List Byte → Digest) (bits : Int)
    (steps : List (Int × List Byte)) :
    ∀ bc : BlockChain, bc.blocks ≠ [] →
      ∃ bc1, addAll sum256 bits bc steps = some bc1 ∧
        bc1.blocks.length = bc.blocks.length + steps.length ∧
        bc1.blocks.head? = bc.blocks.head? := by
  induction steps with
  | nil =>
    intro bc _
    exact ⟨bc, rfl, rfl, rfl⟩
  | cons step rest ih =>
    intro bc hne
    obtain ⟨last, hlast⟩ := getLast?_of_ne_nil bc.blocks hne
    obtain ⟨now, data⟩ := step
    obtain ⟨bc1, hall, hlen, hhead⟩ :=
      ih ⟨bc.blocks ++ [NewBlock sum256 bits now data last.Hash]⟩ (by simp)
    refine ⟨bc1, ?_, ?_, ?_⟩
    · simp only [addAll, AddBlock_of_getLast? sum256 bits now bc data last hlast]
      exact hall
    · rw [hlen]
      show (bc.blocks ++ [NewBlock sum256 bits now data last.Hash]).length + rest.length =
        bc.blocks.length + (rest.length + 1)
      rw [List.length_append, List.length_singleton]
      omega
    · rw [hhead]
      cases hb : bc.blocks with
      | nil => exact absurd hb hne
      | cons x xs => rfl

/-- The chains `addAll` builds from `NewBlockchain` are reachable. -/
theorem addAll_reachable (sum256 : List Byte → Digest) (bits : Int)
    (steps : List (Int × List Byte)) :
    ∀ bc bc1 : BlockChain, Reachable sum256 bits bc → addAll sum256 bits bc steps = some bc1 →
      Reachable sum256 bits bc1 := by
  induction steps with
  | nil =>
    intro bc bc1 hr h
    simp only [addAll, Option.some.injEq] at h
    rw [← h]
    exact hr
  | cons step rest ih =>
    intro bc bc1 hr h
    obtain ⟨now, data⟩ := step
    simp only [addAll] at h
    cases hadd : AddBlock sum256 bits now bc data with
    | none => rw [hadd] at h; exact absurd h (by simp)
    | some bc2 =>
      rw [hadd] at h
      exact ih bc2 bc1 (Reachable.add bc bc2 now data hr hadd) h

/-- C5: in every chain reachable from `NewBlockchain` by any number of
`AddBlock` calls, for every position `i > 0`, `blocks[i].PrevBlockHash` equals
`blocks[i-1].Hash`. -/
theorem chain_linkage (sum256 : List Byte → Digest) (bc : BlockChain)
    (hr : Reachable sum256 targetBits bc) (i : Nat) (hi : 0 < i)
    (hlt : i < bc.blocks.length) :
    bc.blocks[i].PrevBlockHash = bc.blocks[i - 1].Hash := by
  obtain ⟨j, rfl⟩ : ∃ j, i = j + 1 := ⟨i - 1, by omega⟩
  exact Reachable_linked sum256 targetBits bc hr j bc.blocks[j + 1] bc.blocks[j]
    (List.getElem?_eq_getElem hlt) (List.getElem?_eq_getElem (by omega))

/-- C5 at the chain of two blocks sealed under SHA-256, position 1. -/
theorem chain_linkage_witness :
    Reachable sha256 targetBits sampleChain ∧ 0 < 1 ∧ 1 < sampleChain.blocks.length ∧
      (sampleChain.blocks.get ⟨1, by decide⟩).PrevBlockHash =
        (sampleChain.blocks.get ⟨0, by decide⟩).Hash :=
  ⟨sampleChain_reachable, by decide, by decide,
   chain_linkage sha256 sampleChain sampleChain_reachable 1 (by decide) (by decide)⟩

/-- C6: for every list of `k` payloads (each with the clock reading of its
call), `NewBlockchain` followed by the `k` `AddBlock` calls succeeds and gives
a chain of exactly `k + 1` blocks whose first block is the genesis block:
`PrevBlockHash` is empty and `Data` is the bytes of `"Genesis Block"`. -/
theorem chain_length_and_genesis (sum256 : List Byte → Digest) (now : Int)
    (steps : List (Int × List Byte)) :
    ∃ bc, addAll sum256 targetBits (NewBlockchain sum256 targetBits now) steps = some bc ∧
      bc.blocks.length = steps.length + 1 ∧
      ∃ g, bc.blocks.head? = some g ∧ g.PrevBlockHash = [] ∧ g.Data = genesisData ∧
        g.Data.map (fun x => Char.ofNat x.val) = "Genesis Block".toList := by
  obtain ⟨bc, hall, hlen, hhead⟩ :=
    addAll_spec sum256 targetBits steps (NewBlockchain sum256 targetBits now)
      (by simp [NewBlockchain])
  refine ⟨bc, hall, ?_, NewGenesisBlock sum256 targetBits now, ?_, rfl, rfl, ?_⟩
  · rw [hlen]
    simp only [NewBlockchain, List.length_singleton]
    omega
  · rw [hhead]
    rfl
  · show genesisData.map (fun x => Char.ofNat x.val) = "Genesis Block".toList
    decide

/-- C7: for every non-empty chain and payload, `AddBlock` succeeds; afterwards
the chain is one block longer, every block that was at position `i` is still
at position `i` unchanged, and the new last block has `Data` equal to the
payload and `PrevBlockHash` equal to the `Hash` of the previous last block. -/
theorem AddBlock_append_only (sum256 : List Byte → Digest) (now : Int) (bc : BlockChain)
    (data : List Byte) (hne : bc.blocks ≠ []) :
    ∃ bc1 last new, AddBlock sum256 targetBits now bc data = some bc1 ∧
      bc1.blocks.length = bc.blocks.length + 1 ∧
      (∀ i, i < bc.blocks.length → bc1.blocks[i]? = bc.blocks[i]?) ∧
      bc.blocks.getLast? = some last ∧
      bc1.blocks.getLast? = some new ∧
      new.Data = data ∧ new.PrevBlockHash = last.Hash := by
  obtain ⟨last, hlast⟩ := getLast?_of_ne_nil bc.blocks hne
  refine ⟨⟨bc.blocks ++ [NewBlock sum256 targetBits now data last.Hash]⟩, last,
    NewBlock sum256 targetBits now data last.Hash,
    AddBlock_of_getLast? sum256 targetBits now bc data last hlast, ?_, ?_, hlast, ?_, rfl, rfl⟩
  · simp
  · intro i hi
    exact List.getElem?_append_left hi
  · simp

/-- C7 at the one-block chain of `sealedGenesis` under SHA-256. -/
theorem AddBlock_append_only_witness :
    (BlockChain.mk [sealedGenesis]).blocks ≠ [] ∧
    ∃ bc1 last new, AddBlock sha256 targetBits secondStamp ⟨[sealedGenesis]⟩ payload1 = some bc1 ∧
      bc1.blocks.length = (BlockChain.mk [sealedGenesis]).blocks.length + 1 ∧
      (∀ i, i < (BlockChain.mk [sealedGenesis]).blocks.length →
        bc1.blocks[i]? = (BlockChain.mk [sealedGenesis]).blocks[i]?) ∧
      (BlockChain.mk [sealedGenesis]).blocks.getLast? = some last ∧
      bc1.blocks.getLast? = some new ∧
      new.Data = payload1 ∧ new.PrevBlockHash = last.Hash :=
  ⟨by decide,
   AddBlock_append_only sha256 secondStamp ⟨[sealedGenesis]⟩ payload1 (by decide)⟩

/-! ## Sealed blocks in the chain -/

/-- Every block in every chain built by `NewBlockchain` and `AddBlock` has a
non-empty `Hash`; and when some nonce in `[0, maxNonce)` has a digest below
the target for that block, the block is sealed: the digest recomputed with the
recorded `Nonce` equals the stored `Hash`, and `Hash` read as a big-endian
unsigned integer is strictly less than the target.  Whether every search
finds such a nonce is a fact about the digest function that nothing here
decides. -/
theorem reachable_block_sealed_of_found (sum256 : List Byte → Digest) (bc : BlockChain)
    (hr : Reachable sum256 targetBits bc) (b : Block) (hb : b ∈ bc.blocks) :
    b.Hash ≠ [] ∧
    ((∃ n, 0 ≤ n ∧ n < maxNonce ∧
        SetBytes (sum256 (prepareData targetBits (NewProofOfWork targetBits b) n)).val <
          (NewProofOfWork targetBits b).target) →
      (sum256 (prepareData targetBits (NewProofOfWork targetBits b) b.Nonce)).val = b.Hash ∧
        SetBytes b.Hash < (NewProofOfWork targetBits b).target) := by
  obtain ⟨now, data, prev, rfl⟩ := Reachable_mem sum256 targetBits bc hr b hb
  exact ⟨NewBlock_Hash_ne_nil sum256 targetBits now data prev,
    NewBlock_sealed_of_found sum256 targetBits now data prev⟩

set_option maxRecDepth 100000 in
/-- The second block of the chain sealed under SHA-256 is sealed. -/
theorem reachable_block_sealed_of_found_witness :
    Reachable sha256 targetBits sampleChain ∧ sealedSecond ∈ sampleChain.blocks ∧
    (∃ n, 0 ≤ n ∧ n < maxNonce ∧
        SetBytes (sha256 (prepareData targetBits (NewProofOfWork targetBits sealedSecond) n)).val <
          (NewProofOfWork targetBits sealedSecond).target) ∧
    sealedSecond.Hash ≠ [] ∧
    (sha256 (prepareData targetBits (NewProofOfWork targetBits sealedSecond)
      sealedSecond.Nonce)).val = sealedSecond.Hash ∧
    SetBytes sealedSecond.Hash < (NewProofOfWork targetBits sealedSecond).target :=
  have hw := reachable_block_sealed_of_found sha256 sampleChain sampleChain_reachable
    sealedSecond (by decide)
  ⟨sampleChain_reachable, by decide, ⟨2, by decide⟩, hw.1, hw.2 ⟨2, by decide⟩⟩

/-! ## The target -/

theorem toUint_of_lt (x : Int) (h0 : 0 ≤ x) (h1 : x < 2 ^ 64) : toUint x = x.toNat := by
  unfold toUint
  rw [Int.emod_eq_of_lt h0 h1]

set_option maxRecDepth 100000 in
/-- C10: the target `NewProofOfWork` computes is `2 ^ (256 - D)`: with the
difficulty as a parameter `D`, `0 ≤ D < 256`, the computation
`1 << (256 - D)` equals `2 ^ (256 - D)`, and for the configured difficulty
`targetBits = 20` it is `2 ^ 236`. -/
theorem target_eq_two_pow (D : Int) (b : Block) (h0 : 0 ≤ D) (h1 : D < 256) :
    (NewProofOfWork D b).target = 2 ^ (256 - D).toNat ∧
      (NewProofOfWork targetBits b).target = 2 ^ 236 := by
  constructor
  · show Lsh 1 (toUint (256 - D)) = 2 ^ (256 - D).toNat
    rw [toUint_of_lt (256 - D) (by omega) (by omega)]
    unfold Lsh
    rw [one_mul]
  · show Lsh 1 (toUint (256 - targetBits)) = 2 ^ 236
    decide

/-- C10 at difficulty 255, the largest admitted. -/
theorem target_eq_two_pow_witness :
    (0 : Int) ≤ 255 ∧ (255 : Int) < 256 ∧
    ((NewProofOfWork 255 draftBlock).target = 2 ^ (256 - (255 : Int)).toNat ∧
      (NewProofOfWork targetBits draftBlock).target = 2 ^ 236) :=
  ⟨by decide, by decide, target_eq_two_pow 255 draftBlock (by decide) (by decide)⟩

/-! ## The target as a function of the difficulty -/

theorem target_of_le (D : Int) (b : Block) (h0 : 0 ≤ D) (h1 : D ≤ 256) :
    (NewProofOfWork D b).target = 2 ^ (256 - D).toNat := by
  show Lsh 1 (toUint (256 - D)) = 2 ^ (256 - D).toNat
  rw [toUint_of_lt (256 - D) (by omega) (by omega)]
  unfold Lsh
  rw [one_mul]

/-- C11: the target is strictly decreasing in the difficulty: for
`0 ≤ D1 < D2 < 256` the target for `D2` is strictly smaller than the target
for `D1`, so every digest that qualifies at `D2` also qualifies at `D1`. -/
theorem target_strictly_decreasing (D1 D2 : Int) (b : Block) (h0 : 0 ≤ D1) (h12 : D1 < D2)
    (h2 : D2 < 256) :
    (NewProofOfWork D2 b).target < (NewProofOfWork D1 b).target ∧
    ∀ h : Digest, SetBytes h.val < (NewProofOfWork D2 b).target →
      SetBytes h.val < (NewProofOfWork D1 b).target := by
  have hlt : (NewProofOfWork D2 b).target < (NewProofOfWork D1 b).target := by
    rw [target_of_le D2 b (by omega) (by omega), target_of_le D1 b h0 (by omega)]
    exact pow_lt_pow_right₀ (by norm_num) (by omega)
  exact ⟨hlt, fun h hq => lt_trans hq hlt⟩

set_option maxRecDepth 100000 in
/-- C11 at the difficulties 20 and 21. -/
theorem target_strictly_decreasing_witness :
    (0 : Int) ≤ 20 ∧ (20 : Int) < 21 ∧ (21 : Int) < 256 ∧
    ((NewProofOfWork 21 draftBlock).target < (NewProofOfWork 20 draftBlock).target ∧
    ∀ h : Digest, SetBytes h.val < (NewProofOfWork 21 draftBlock).target →
      SetBytes h.val < (NewProofOfWork 20 draftBlock).target) :=
  ⟨by decide, by decide, by decide,
   target_strictly_decreasing 20 21 draftBlock (by decide) (by decide) (by decide)⟩

/-! ## A difficulty at or above the digest width -/

/-- At `D = 256` the wrapping conversion gives the shift 0 and the target 1. -/
theorem target_at_width (b : Block) :
    NewProofOfWork 256 b = ⟨b, 1⟩ ∧ (NewProofOfWork 256 b).target = 2 ^ 0 := by
  constructor
  · show (⟨b, Lsh 1 (toUint (256 - 256))⟩ : ProofOfWork) = ⟨b, 1⟩
    have h : Lsh 1 (toUint (256 - 256)) = 1 := by decide
    rw [h]
  · exact target_of_le 256 b (by omega) (by omega)

theorem constUint_eq_some (c : Int) (h0 : 0 ≤ c) (h1 : c < 2 ^ 64) :
    constUint c = some (toUint c) := by
  unfold constUint
  rw [if_pos ⟨h0, h1⟩, toUint_of_lt c h0 h1]

theorem constUint_eq_none (c : Int) (h : c < 0) : constUint c = none := by
  unfold constUint
  rw [if_neg (by omega)]

/-- Where the compiler accepts the conversion, the checked target computation
is `NewProofOfWork`. -/
theorem NewProofOfWorkChecked_eq_some (D : Int) (b : Block) (h0 : 256 - 2 ^ 64 < D)
    (h1 : D ≤ 256) : NewProofOfWorkChecked D b = some (NewProofOfWork D b) := by
  unfold NewProofOfWorkChecked
  rw [constUint_eq_some (256 - D) (by omega) (by omega)]
  rfl

theorem NewProofOfWorkChecked_eq_none (D : Int) (b : Block) (h : 256 < D) :
    NewProofOfWorkChecked D b = none := by
  unfold NewProofOfWorkChecked
  rw [constUint_eq_none (256 - D) (by omega)]

/-- C12, as the code has it: a difficulty strictly greater than the digest
bit-width, `D > 256`, is rejected at the target computation, the conversion
`uint(256 - D)` of `NewProofOfWork` being refused, so that no target is
produced; a difficulty equal to the bit-width is not rejected, for `D = 256`
`NewProofOfWork` produces the target `1 << 0 = 1`; and for every
`0 ≤ D ≤ 256` the target computation succeeds with the target
`2 ^ (256 - D)`. -/
theorem difficulty_above_width_rejected (D : Int) (b : Block) (h : 256 < D) :
    NewProofOfWorkChecked D b = none ∧
    NewProofOfWorkChecked 256 b = some ⟨b, 1⟩ ∧
    ∀ D0 : Int, 0 ≤ D0 → D0 ≤ 256 →
      NewProofOfWorkChecked D0 b = some (NewProofOfWork D0 b) ∧
        (NewProofOfWork D0 b).target = 2 ^ (256 - D0).toNat := by
  refine ⟨NewProofOfWorkChecked_eq_none D b h, ?_, fun D0 h0 h1 =>
    ⟨NewProofOfWorkChecked_eq_some D0 b (by omega) h1, target_of_le D0 b h0 h1⟩⟩
  rw [NewProofOfWorkChecked_eq_some 256 b (by omega) (le_refl _), (target_at_width b).1]

/-- C12 as amended at `D = 257`, the least difficulty above the width, which
the wrapping conversion would turn into a shift of `2 ^ 64 - 1` bits. -/
theorem difficulty_above_width_rejected_witness :
    (256 : Int) < 257 ∧ toUint (256 - 257) = 2 ^ 64 - 1 ∧
    (NewProofOfWorkChecked 257 draftBlock = none ∧
    NewProofOfWorkChecked 256 draftBlock = some ⟨draftBlock, 1⟩ ∧
    ∀ D0 : Int, 0 ≤ D0 → D0 ≤ 256 →
      NewProofOfWorkChecked D0 draftBlock = some (NewProofOfWork D0 draftBlock) ∧
        (NewProofOfWork D0 draftBlock).target = 2 ^ (256 - D0).toNat) :=
  ⟨by decide, by decide, difficulty_above_width_rejected 257 draftBlock (by decide)⟩

/-- C12 as stated fails at `D = 256`, a difficulty equal to the digest
bit-width: the conversion `uint(256 - 256)` is accepted and the target
computation returns a `ProofOfWork` with target 1 for the block stamped
1793750400. -/
theorem target_at_width_not_rejected :
    (256 : Int) ≥ 256 ∧ constUint (256 - 256) = some 0 ∧
    NewProofOfWorkChecked 256 draftBlock = some ⟨draftBlock, 1⟩ ∧
    NewProofOfWork 256 draftBlock = ⟨draftBlock, 1⟩ := by
  decide

/-! ## Bounds on the value of a byte string -/

theorem SetBytes_eq_unsignedValue (buf : List Byte) :
    SetBytes buf = (unsignedValue buf : Int) := rfl

theorem unsignedValue_append_singleton (l : List Byte) (x : Byte) :
    unsignedValue (l ++ [x]) = unsignedValue l * 256 + x.val := by
  unfold unsignedValue
  rw [List.foldl_append]
  rfl

theorem unsignedValue_lt (l : List Byte) : unsignedValue l < 256 ^ l.length := by
  induction l using List.reverseRecOn with
  | nil => simp [unsignedValue]
  | append_singleton l x ih =>
    rw [unsignedValue_append_singleton, List.length_append, List.length_singleton, pow_succ]
    have hx : x.val < 256 := x.isLt
    have h1 : unsignedValue l + 1 ≤ 256 ^ l.length := ih
    have h2 : (unsignedValue l + 1) * 256 ≤ 256 ^ l.length * 256 := Nat.mul_le_mul_right 256 h1
    omega

/-- Every 32-byte digest, read as a big-endian unsigned integer, is below
`2 ^ 256`. -/
theorem SetBytes_digest_lt (h : Digest) : SetBytes h.val < 2 ^ 256 := by
  have hl := unsignedValue_lt h.val
  rw [h.property] at hl
  rw [SetBytes_eq_unsignedValue]
  have h256 : ((256 : Nat) ^ 32) = 2 ^ 256 := by norm_num
  rw [h256] at hl
  exact_mod_cast hl

/-! ## The boundary `D = 0` -/

set_option maxRecDepth 100000 in
/-- C13: with the difficulty set to 0 the target is `2 ^ 256`, every 32-byte
digest read as a big-endian unsigned integer is strictly below it, and `Run`
returns nonce 0 together with `sum256(prepareData(0))`, for every predecessor
digest and timestamp. -/
theorem Run_at_difficulty_zero (sum256 : List Byte → Digest) (b : Block) :
    (NewProofOfWork 0 b).target = 2 ^ 256 ∧
    (∀ h : Digest, SetBytes h.val < (NewProofOfWork 0 b).target) ∧
    Run sum256 0 (NewProofOfWork 0 b) =
      (0, (sum256 (prepareData 0 (NewProofOfWork 0 b) 0)).val) := by
  have ht : (NewProofOfWork 0 b).target = 2 ^ 256 := target_of_le 0 b (by omega) (by omega)
  have hall : ∀ h : Digest, SetBytes h.val < (NewProofOfWork 0 b).target := by
    intro h
    rw [ht]
    exact SetBytes_digest_lt h
  exact ⟨ht, hall,
    Run_eq_of_first sum256 0 (NewProofOfWork 0 b) 0 (le_refl 0) maxNonce_pos (hall _)
      (fun m h0 h1 => absurd h1 (by omega))⟩

/-! ## What `Validate` and `Run` read of a block -/

theorem Validate_congr (sum256 : List Byte → Digest) (bits : Int) (p q : ProofOfWork)
    (hp : p.block.PrevBlockHash = q.block.PrevBlockHash)
    (ht : p.block.Timestamp = q.block.Timestamp)
    (hn : p.block.Nonce = q.block.Nonce) (hg : p.target = q.target) :
    Validate sum256 bits p = Validate sum256 bits q := by
  unfold Validate
  rw [prepareData_congr bits p q hp ht, hn, hg]

theorem NewProofOfWork_target_congr (bits : Int) (b1 b2 : Block) :
    (NewProofOfWork bits b1).target = (NewProofOfWork bits b2).target := rfl

/-- C14: for any two blocks that agree on `PrevBlockHash`, `Timestamp` and
`Nonce`, `Validate` returns the same boolean whatever their `Hash` and `Data`
fields are; in particular a block whose `Hash` was overwritten with arbitrary
bytes validates exactly as the original does. -/
theorem Validate_ignores_Hash_and_Data (sum256 : List Byte → Digest) (b1 b2 : Block)
    (hp : b1.PrevBlockHash = b2.PrevBlockHash) (ht : b1.Timestamp = b2.Timestamp)
    (hn : b1.Nonce = b2.Nonce) :
    Validate sum256 targetBits (NewProofOfWork targetBits b1) =
      Validate sum256 targetBits (NewProofOfWork targetBits b2) ∧
    ∀ bytes : List Byte,
      Validate sum256 targetBits (NewProofOfWork targetBits { b1 with Hash := bytes }) =
        Validate sum256 targetBits (NewProofOfWork targetBits b1) :=
  ⟨Validate_congr sum256 targetBits _ _ hp ht hn (NewProofOfWork_target_congr targetBits b1 b2),
   fun _ => Validate_congr sum256 targetBits _ _ rfl rfl rfl
     (NewProofOfWork_target_congr targetBits _ b1)⟩

set_option maxRecDepth 100000 in
/-- C14 at the sealed genesis block and its copy with `Hash` and `Data`
overwritten, under SHA-256: both validate. -/
theorem Validate_ignores_Hash_and_Data_witness :
    overwrittenGenesis.PrevBlockHash = sealedGenesis.PrevBlockHash ∧
    overwrittenGenesis.Timestamp = sealedGenesis.Timestamp ∧
    overwrittenGenesis.Nonce = sealedGenesis.Nonce ∧
    overwrittenGenesis.Hash ≠ sealedGenesis.Hash ∧
    Validate sha256 targetBits (NewProofOfWork targetBits sealedGenesis) = true ∧
    (Validate sha256 targetBits (NewProofOfWork targetBits overwrittenGenesis) =
      Validate sha256 targetBits (NewProofOfWork targetBits sealedGenesis) ∧
    ∀ bytes : List Byte,
      Validate sha256 targetBits
          (NewProofOfWork targetBits { overwrittenGenesis with Hash := bytes }) =
        Validate sha256 targetBits (NewProofOfWork targetBits overwrittenGenesis)) :=
  ⟨rfl, rfl, rfl, by decide, by decide,
   Validate_ignores_Hash_and_Data sha256 overwrittenGenesis sealedGenesis rfl rfl rfl⟩

theorem runLoop_congr (sum256 : List Byte → Digest) (bits : Int) (p q : ProofOfWork)
    (hp : p.block.PrevBlockHash = q.block.PrevBlockHash)
    (ht : p.block.Timestamp = q.block.Timestamp) (hg : p.target = q.target) (fuel : Nat) :
    ∀ (nonce : Int) (hash : Digest),
      runLoop sum256 bits p fuel nonce hash = runLoop sum256 bits q fuel nonce hash := by
  induction fuel with
  | zero => intro nonce hash; rfl
  | succ fuel ih =>
    intro nonce hash
    rw [runLoop_succ, runLoop_succ, digestAt_congr sum256 bits p q hp ht,
      prepareData_congr bits p q hp ht, hg, ih]

theorem Run_congr (sum256 : List Byte → Digest) (bits : Int) (p q : ProofOfWork)
    (hp : p.block.PrevBlockHash = q.block.PrevBlockHash)
    (ht : p.block.Timestamp = q.block.Timestamp) (hg : p.target = q.target) :
    Run sum256 bits p = Run sum256 bits q := by
  unfold Run
  rw [runLoop_congr sum256 bits p q hp ht hg]

/-- C16: `Run` on two blocks with identical predecessor digest and timestamp,
at the same difficulty, returns the identical `(nonce, digest)` pair; the
result does not depend on the blocks' `Data`, `Hash` or `Nonce`. -/
theorem Run_deterministic (sum256 : List Byte → Digest) (b1 b2 : Block)
    (hp : b1.PrevBlockHash = b2.PrevBlockHash) (ht : b1.Timestamp = b2.Timestamp) :
    Run sum256 targetBits (NewProofOfWork targetBits b1) =
      Run sum256 targetBits (NewProofOfWork targetBits b2) :=
  Run_congr sum256 targetBits _ _ hp ht (NewProofOfWork_target_congr targetBits b1 b2)

/-- C16 at the sealed genesis block and its overwritten copy, under SHA-256. -/
theorem Run_deterministic_witness :
    overwrittenGenesis.PrevBlockHash = sealedGenesis.PrevBlockHash ∧
    overwrittenGenesis.Timestamp = sealedGenesis.Timestamp ∧
    overwrittenGenesis.Data ≠ sealedGenesis.Data ∧
    overwrittenGenesis.Hash ≠ sealedGenesis.Hash ∧
    Run sha256 targetBits (NewProofOfWork targetBits overwrittenGenesis) =
      Run sha256 targetBits (NewProofOfWork targetBits sealedGenesis) :=
  ⟨rfl, rfl, by decide, by decide,
   Run_deterministic sha256 overwrittenGenesis sealedGenesis rfl rfl⟩

/-! ## The index expression of `AddBlock` -/

theorem AddBlock_eq_none_iff (sum256 : List Byte → Digest) (bits : Int) (now : Int)
    (bc : BlockChain) (data : List Byte) :
    AddBlock sum256 bits now bc data = none ↔ bc.blocks = [] := by
  constructor
  · intro h
    by_contra hne
    obtain ⟨last, hlast⟩ := getLast?_of_ne_nil bc.blocks hne
    rw [AddBlock_of_getLast? sum256 bits now bc data last hlast] at h
    exact absurd h (by simp)
  · intro h
    unfold AddBlock
    rw [h]
    rfl

/-- C20: every chain reachable from `NewBlockchain` by `AddBlock` calls is
non-empty, so the access `blocks[len(blocks)-1]` in `AddBlock` is in bounds and
the call succeeds; the access fails exactly on a chain with zero blocks. -/
theorem AddBlock_in_bounds (sum256 : List Byte → Digest) (bc : BlockChain)
    (hr : Reachable sum256 targetBits bc) (now : Int) (data : List Byte) :
    bc.blocks ≠ [] ∧ bc.blocks.length - 1 < bc.blocks.length ∧
    (∃ bc1, AddBlock sum256 targetBits now bc data = some bc1) ∧
    (∀ other : BlockChain,
      AddBlock sum256 targetBits now other data = none ↔ other.blocks = []) := by
  have hne := Reachable_ne_nil sum256 targetBits bc hr
  obtain ⟨last, hlast⟩ := getLast?_of_ne_nil bc.blocks hne
  refine ⟨hne, ?_, ⟨_, AddBlock_of_getLast? sum256 targetBits now bc data last hlast⟩,
    fun other => AddBlock_eq_none_iff sum256 targetBits now other data⟩
  have hpos : 0 < bc.blocks.length := List.length_pos.mpr hne
  omega

/-- C20 at the two-block chain sealed under SHA-256. -/
theorem AddBlock_in_bounds_witness :
    Reachable sha256 targetBits sampleChain ∧
    (sampleChain.blocks ≠ [] ∧ sampleChain.blocks.length - 1 < sampleChain.blocks.length ∧
    (∃ bc1, AddBlock sha256 targetBits secondStamp sampleChain payload1 = some bc1) ∧
    (∀ other : BlockChain,
      AddBlock sha256 targetBits secondStamp other payload1 = none ↔ other.blocks = [])) :=
  ⟨sampleChain_reachable,
   AddBlock_in_bounds sha256 sampleChain sampleChain_reachable secondStamp payload1⟩

/-! ## The serialization -/

theorem toUint_lt (x : Int) : toUint x < 2 ^ 64 := by
  unfold toUint
  have h := Int.emod_lt_of_pos x (show (0 : Int) < 2 ^ 64 by norm_num)
  have h0 := Int.emod_nonneg x (show (2 : Int) ^ 64 ≠ 0 by norm_num)
  omega

theorem toUint_int64 (x : Int) (hlo : -2 ^ 63 ≤ x) (hhi : x < 2 ^ 63) :
    (0 ≤ x ∧ (toUint x : Int) = x) ∨ (x < 0 ∧ (toUint x : Int) = x + 2 ^ 64) := by
  unfold toUint
  by_cases h : 0 ≤ x
  · left
    refine ⟨h, ?_⟩
    rw [Int.emod_eq_of_lt h (by omega)]
    exact Int.toNat_of_nonneg h
  · right
    refine ⟨by omega, ?_⟩
    have he : x % 2 ^ 64 = x + 2 ^ 64 := by
      rw [← Int.add_emod_self, Int.emod_eq_of_lt (by omega) (by omega)]
    rw [he]
    exact Int.toNat_of_nonneg (by omega)

theorem unsignedValue_eight (b0 b1 b2 b3 b4 b5 b6 b7 : Byte) :
    unsignedValue [b0, b1, b2, b3, b4, b5, b6, b7] =
      b0.val * 2 ^ 56 + b1.val * 2 ^ 48 + b2.val * 2 ^ 40 + b3.val * 2 ^ 32 +
        b4.val * 2 ^ 24 + b5.val * 2 ^ 16 + b6.val * 2 ^ 8 + b7.val := by
  simp only [unsignedValue, List.foldl]
  omega

/-- The eight bytes `IntToHex` emits carry the value `uint64(num)`. -/
theorem unsignedValue_IntToHex (x : Int) : unsignedValue (IntToHex x) = toUint x := by
  have hlt := toUint_lt x
  unfold IntToHex
  rw [unsignedValue_eight]
  simp only [toByte, Nat.shiftRight_eq_div_pow]
  omega

/-- Decoding the bytes of `IntToHex` gives the integer back. -/
theorem decodeInt64_IntToHex (x : Int) (hlo : -2 ^ 63 ≤ x) (hhi : x < 2 ^ 63) :
    decodeInt64 (IntToHex x) = x := by
  unfold decodeInt64
  rw [SetBytes_eq_unsignedValue, unsignedValue_IntToHex]
  rcases toUint_int64 x hlo hhi with ⟨h0, hu⟩ | ⟨h0, hu⟩
  · rw [hu, if_pos hhi]
  · rw [hu, if_neg (by omega)]
    omega

/-- The bytes of `IntToHex` are the only eight bytes that decode to the
integer. -/
theorem IntToHex_unique (x : Int) (buf : List Byte) (hl : buf.length = 8)
    (hd : decodeInt64 buf = x) : buf = IntToHex x := by
  match buf, hl with
  | [b0, b1, b2, b3, b4, b5, b6, b7], _ =>
    have h0 := b0.isLt
    have h1 := b1.isLt
    have h2 := b2.isLt
    have h3 := b3.isLt
    have h4 := b4.isLt
    have h5 := b5.isLt
    have h6 := b6.isLt
    have h7 := b7.isLt
    have hv := unsignedValue_eight b0 b1 b2 b3 b4 b5 b6 b7
    have hu : (toUint x : Int) = (unsignedValue [b0, b1, b2, b3, b4, b5, b6, b7] : Int) := by
      unfold decodeInt64 at hd
      rw [SetBytes_eq_unsignedValue] at hd
      unfold toUint
      split at hd
      · rw [← hd, Int.emod_eq_of_lt (by omega) (by omega)]
        exact Int.toNat_of_nonneg (by omega)
      · have he : x % 2 ^ 64 = x + 2 ^ 64 := by
          rw [← Int.add_emod_self, Int.emod_eq_of_lt (by omega) (by omega)]
        rw [he, ← hd]
        rw [Int.toNat_of_nonneg (by omega)]
        omega
    have hn : toUint x = unsignedValue [b0, b1, b2, b3, b4, b5, b6, b7] := by exact_mod_cast hu
    unfold IntToHex
    simp only [hn, hv, toByte, Nat.shiftRight_eq_div_pow, List.cons.injEq, and_true]
    refine ⟨?_, ?_, ?_, ?_, ?_, ?_, ?_, ?_⟩ <;> apply Fin.ext <;> simp only [] <;> omega

theorem IntToHex_length (x : Int) : (IntToHex x).length = 8 := rfl

theorem IntToHex_injective (x y : Int) (hxlo : -2 ^ 63 ≤ x) (hxhi : x < 2 ^ 63)
    (hylo : -2 ^ 63 ≤ y) (hyhi : y < 2 ^ 63) (h : IntToHex x = IntToHex y) : x = y := by
  rw [← decodeInt64_IntToHex x hxlo hxhi, ← decodeInt64_IntToHex y hylo hyhi, h]

theorem prepareData_eq (bits : Int) (pow : ProofOfWork) (nonce : Int) :
    prepareData bits pow nonce =
      pow.block.PrevBlockHash ++ IntToHex pow.block.Timestamp ++ IntToHex bits ++
        IntToHex nonce := rfl

theorem prepareData_length (bits : Int) (pow : ProofOfWork) (nonce : Int) :
    (prepareData bits pow nonce).length = pow.block.PrevBlockHash.length + 24 := by
  rw [prepareData_eq]
  simp only [List.length_append, IntToHex_length]

/-- C15: for every block and nonce `n`, `prepareData(n)` is `PrevBlockHash`
followed by the encodings of `Timestamp`, of `targetBits` and of `n`, in that
order and with nothing in between, so its length is
`len(PrevBlockHash) + 24`; for every `int64` `x`, `IntToHex(x)` is 8 bytes,
decodes back to `x` as a big-endian two's-complement integer, and is the only
8-byte string that does. -/
theorem serialization_format (pow : ProofOfWork) (n x : Int) (hlo : -2 ^ 63 ≤ x)
    (hhi : x < 2 ^ 63) :
    prepareData targetBits pow n =
        pow.block.PrevBlockHash ++
          (IntToHex pow.block.Timestamp ++ (IntToHex targetBits ++ IntToHex n)) ∧
      (prepareData targetBits pow n).length = pow.block.PrevBlockHash.length + 24 ∧
      (IntToHex x).length = 8 ∧
      decodeInt64 (IntToHex x) = x ∧
      ∀ buf : List Byte, buf.length = 8 → decodeInt64 buf = x → buf = IntToHex x := by
  refine ⟨?_, prepareData_length targetBits pow n, IntToHex_length x,
    decodeInt64_IntToHex x hlo hhi, fun buf hl hd => IntToHex_unique x buf hl hd⟩
  rw [prepareData_eq, List.append_assoc, List.append_assoc]

set_option maxRecDepth 100000 in
/-- C15 at the second sealed block, nonce 2, and the integer `-2`, whose
encoding is `ff ff ff ff ff ff ff fe`. -/
theorem serialization_format_witness :
    (-2 ^ 63 : Int) ≤ -2 ∧ (-2 : Int) < 2 ^ 63 ∧
    IntToHex (-2) = [255, 255, 255, 255, 255, 255, 255, 254] ∧
    IntToHex secondStamp = [0, 0, 0, 0, 107, 53, 213, 187] ∧
    (prepareData targetBits (NewProofOfWork targetBits sealedSecond) 2 =
        (NewProofOfWork targetBits sealedSecond).block.PrevBlockHash ++
          (IntToHex (NewProofOfWork targetBits sealedSecond).block.Timestamp ++
            (IntToHex targetBits ++ IntToHex 2)) ∧
      (prepareData targetBits (NewProofOfWork targetBits sealedSecond) 2).length =
        (NewProofOfWork targetBits sealedSecond).block.PrevBlockHash.length + 24 ∧
      (IntToHex (-2)).length = 8 ∧
      decodeInt64 (IntToHex (-2)) = -2 ∧
      ∀ buf : List Byte, buf.length = 8 → decodeInt64 buf = -2 → buf = IntToHex (-2)) :=
  ⟨by decide, by decide, by decide, by decide,
   serialization_format (NewProofOfWork targetBits sealedSecond) 2 (-2) (by decide) (by decide)⟩

/-- The serialization determines the committed fields. -/
theorem prepareData_inj (bits : Int) (p q : ProofOfWork) (n m : Int)
    (h : prepareData bits p n = prepareData bits q m) :
    p.block.PrevBlockHash = q.block.PrevBlockHash ∧
    IntToHex p.block.Timestamp = IntToHex q.block.Timestamp ∧
    IntToHex n = IntToHex m := by
  rw [prepareData_eq, prepareData_eq] at h
  obtain ⟨h1, hn⟩ := List.append_inj' h (by rw [IntToHex_length, IntToHex_length])
  obtain ⟨h2, _⟩ := List.append_inj' h1 (by rw [IntToHex_length])
  obtain ⟨h3, ht⟩ := List.append_inj' h2 (by rw [IntToHex_length, IntToHex_length])
  exact ⟨h3, ht, hn⟩

/-- C19: for any two blocks and nonces (timestamps and nonces being 64-bit
integers), `prepareData` gives the same byte string exactly when the two
`PrevBlockHash` values, of any lengths, the two `Timestamp`s and the two nonces
are equal; so changing `PrevBlockHash`, the `Timestamp` or the nonce always
changes the bytes that are hashed. -/
theorem prepareData_injective (p q : ProofOfWork) (n m : Int)
    (hp : -2 ^ 63 ≤ p.block.Timestamp ∧ p.block.Timestamp < 2 ^ 63)
    (hq : -2 ^ 63 ≤ q.block.Timestamp ∧ q.block.Timestamp < 2 ^ 63)
    (hn : -2 ^ 63 ≤ n ∧ n < 2 ^ 63) (hm : -2 ^ 63 ≤ m ∧ m < 2 ^ 63) :
    (prepareData targetBits p n = prepareData targetBits q m ↔
      p.block.PrevBlockHash = q.block.PrevBlockHash ∧
        p.block.Timestamp = q.block.Timestamp ∧ n = m) ∧
    ((p.block.PrevBlockHash ≠ q.block.PrevBlockHash ∨
        p.block.Timestamp ≠ q.block.Timestamp ∨ n ≠ m) →
      prepareData targetBits p n ≠ prepareData targetBits q m) := by
  have hiff : prepareData targetBits p n = prepareData targetBits q m ↔
      p.block.PrevBlockHash = q.block.PrevBlockHash ∧
        p.block.Timestamp = q.block.Timestamp ∧ n = m := by
    constructor
    · intro h
      obtain ⟨h1, h2, h3⟩ := prepareData_inj targetBits p q n m h
      exact ⟨h1, IntToHex_injective _ _ hp.1 hp.2 hq.1 hq.2 h2,
        IntToHex_injective _ _ hn.1 hn.2 hm.1 hm.2 h3⟩
    · rintro ⟨h1, h2, h3⟩
      rw [prepareData_eq, prepareData_eq, h1, h2, h3]
  refine ⟨hiff, fun hne heq => ?_⟩
  obtain ⟨h1, h2, h3⟩ := hiff.mp heq
  rcases hne with h | h | h
  · exact h h1
  · exact h h2
  · exact h h3

set_option maxRecDepth 100000 in
/-- C19 at the second sealed block with nonces 1 and 2, and at that block
against the genesis block, whose `PrevBlockHash` is 32 bytes shorter: the
serializations differ. -/
theorem prepareData_injective_witness :
    ((-2 ^ 63 ≤ (NewProofOfWork targetBits sealedSecond).block.Timestamp ∧
        (NewProofOfWork targetBits sealedSecond).block.Timestamp < 2 ^ 63) ∧
      (-2 ^ 63 ≤ (NewProofOfWork targetBits sealedGenesis).block.Timestamp ∧
        (NewProofOfWork targetBits sealedGenesis).block.Timestamp < 2 ^ 63) ∧
      ((-2 ^ 63 : Int) ≤ 1 ∧ (1 : Int) < 2 ^ 63) ∧ ((-2 ^ 63 : Int) ≤ 2 ∧ (2 : Int) < 2 ^ 63)) ∧
    prepareData targetBits (NewProofOfWork targetBits sealedSecond) 1 ≠
      prepareData targetBits (NewProofOfWork targetBits sealedSecond) 2 ∧
    prepareData targetBits (NewProofOfWork targetBits sealedSecond) 1 ≠
      prepareData targetBits (NewProofOfWork targetBits sealedGenesis) 1 :=
  ⟨⟨by decide, by decide, by decide, by decide⟩,
   (prepareData_injective (NewProofOfWork targetBits sealedSecond)
      (NewProofOfWork targetBits sealedSecond) 1 2 (by decide) (by decide) (by decide)
      (by decide)).2 (Or.inr (Or.inr (by decide))),
   (prepareData_injective (NewProofOfWork targetBits sealedSecond)
      (NewProofOfWork targetBits sealedGenesis) 1 1 (by decide) (by decide) (by decide)
      (by decide)).2 (Or.inl (by decide))⟩

/-! ## Termination of the search -/

theorem runLoopCounted_succ (sum256 : List Byte → Digest) (bits : Int) (pow : ProofOfWork)
    (fuel : Nat) (nonce : Int) (hash : Digest) (count : Nat) :
    runLoopCounted sum256 bits pow (fuel + 1) nonce hash count =
      if nonce < maxNonce then
        if SetBytes (digestAt sum256 bits pow nonce) < pow.target then
          ((nonce, sum256 (prepareData bits pow nonce)), count + 1)
        else
          runLoopCounted sum256 bits pow fuel (nonce + 1) (sum256 (prepareData bits pow nonce))
            (count + 1)
      else
        ((nonce, hash), count) := rfl

/-- The counted loop returns what the loop returns. -/
theorem runLoopCounted_fst (sum256 : List Byte → Digest) (bits : Int) (pow : ProofOfWork)
    (fuel : Nat) :
    ∀ (nonce : Int) (hash : Digest) (count : Nat),
      (runLoopCounted sum256 bits pow fuel nonce hash count).1 =
        runLoop sum256 bits pow fuel nonce hash := by
  induction fuel with
  | zero => intro nonce hash count; rfl
  | succ fuel ih =>
    intro nonce hash count
    rw [runLoopCounted_succ, runLoop_succ]
    by_cases hlt : nonce < maxNonce
    · rw [if_pos hlt, if_pos hlt]
      by_cases hq : SetBytes (digestAt sum256 bits pow nonce) < pow.target
      · rw [if_pos hq, if_pos hq]
      · rw [if_neg hq, if_neg hq]
        exact ih _ _ _
    · rw [if_neg hlt, if_neg hlt]

/-- Whatever the allowance, the loop entered at `nonce` computes at most
`maxNonce - nonce` digests. -/
theorem runLoopCounted_snd_le (sum256 : List Byte → Digest) (bits : Int) (pow : ProofOfWork)
    (fuel : Nat) :
    ∀ (nonce : Int) (hash : Digest) (count : Nat),
      (runLoopCounted sum256 bits pow fuel nonce hash count).2 ≤
        count + (maxNonce - nonce).toNat := by
  induction fuel with
  | zero =>
    intro nonce hash count
    exact Nat.le_add_right _ _
  | succ fuel ih =>
    intro nonce hash count
    rw [runLoopCounted_succ]
    by_cases hlt : nonce < maxNonce
    · rw [if_pos hlt]
      by_cases hq : SetBytes (digestAt sum256 bits pow nonce) < pow.target
      · rw [if_pos hq]
        show count + 1 ≤ count + (maxNonce - nonce).toNat
        omega
      · rw [if_neg hq]
        have h := ih (nonce + 1) (sum256 (prepareData bits pow nonce)) (count + 1)
        omega
    · rw [if_neg hlt]
      exact Nat.le_add_right _ _

/-- C18: for every block, target and digest function the search ends: the
result of the loop is reached within the `maxNonce` iterations `Run` allows
and is the same under any larger allowance, at most `maxNonce = 2 ^ 63 - 1`
candidates have their digest computed, and the nonce returned satisfies
`0 ≤ nonce ≤ maxNonce`. -/
theorem Run_terminates (sum256 : List Byte → Digest) (bits : Int) (pow : ProofOfWork) :
    maxNonce = 2 ^ 63 - 1 ∧
    (∀ extra : Nat,
      runLoop sum256 bits pow (maxNonce.toNat + extra) 0 zeroHash =
        runLoop sum256 bits pow maxNonce.toNat 0 zeroHash) ∧
    (∀ fuel : Nat,
      (runLoopCounted sum256 bits pow fuel 0 zeroHash 0).1 =
          runLoop sum256 bits pow fuel 0 zeroHash ∧
        ((runLoopCounted sum256 bits pow fuel 0 zeroHash 0).2 : Int) ≤ maxNonce) ∧
    0 ≤ (Run sum256 bits pow).1 ∧ (Run sum256 bits pow).1 ≤ maxNonce := by
  refine ⟨rfl, fun extra => runLoop_fuel sum256 bits pow maxNonce.toNat extra 0 zeroHash (by simp),
    fun fuel => ⟨runLoopCounted_fst sum256 bits pow fuel 0 zeroHash 0, ?_⟩,
    (Run_spec sum256 bits pow).1⟩
  have h := runLoopCounted_snd_le sum256 bits pow fuel 0 zeroHash 0
  have hm : ((maxNonce - 0).toNat : Int) = maxNonce := by
    rw [Int.sub_zero]
    exact Int.toNat_of_nonneg (le_of_lt maxNonce_pos)
  omega

set_option maxRecDepth 100000 in
/-- The count at the second candidate under SHA-256: the digests of nonces 0,
1 and 2 are computed. -/
theorem runLoopCounted_draftSecond :
    runLoopCounted sha256 targetBits (NewProofOfWork targetBits draftSecond) maxNonce.toNat 0
      zeroHash 0 = ((2, sha256 (prepareData targetBits (NewProofOfWork targetBits draftSecond) 2)),
        3) := by
  decide

/-! ## Difficulty as a count of leading zero bits -/

/-- Bit `j` of the value of a byte string is bit `j % 8` of the byte `j / 8`
places from the end. -/
theorem unsignedValue_testBit (l : List Byte) :
    ∀ j : Nat, (unsignedValue l).testBit j =
      (decide (j / 8 < l.length) && (l.getD (l.length - 1 - j / 8) 0).val.testBit (j % 8)) := by
  induction l using List.reverseRecOn with
  | nil =>
    intro j
    simp [unsignedValue]
  | append_singleton l x ih =>
    intro j
    have hx : x.val < 2 ^ 8 := x.isLt
    have hv : unsignedValue (l ++ [x]) = 2 ^ 8 * unsignedValue l + x.val := by
      rw [unsignedValue_append_singleton]
      omega
    rw [hv, Nat.testBit_mul_pow_two_add _ hx, List.length_append, List.length_singleton]
    by_cases hj : j < 8
    · rw [if_pos hj]
      have h0 : j / 8 = 0 := by omega
      have hm : j % 8 = j := by omega
      rw [h0, hm, List.getD_append_right l [x] 0 _ (by omega)]
      have hidx : l.length + 1 - 1 - 0 - l.length = 0 := by omega
      rw [hidx]
      simp
    · rw [if_neg hj, ih (j - 8)]
      have hd : (j - 8) / 8 = j / 8 - 1 := by omega
      have hm : (j - 8) % 8 = j % 8 := by omega
      have h1 : 1 ≤ j / 8 := by omega
      rw [hd, hm]
      by_cases hin : j / 8 < l.length + 1
      · have hin1 : j / 8 - 1 < l.length := by omega
        rw [decide_eq_true hin, decide_eq_true hin1,
          List.getD_append l [x] 0 _ (show l.length + 1 - 1 - j / 8 < l.length by omega)]
        have hidx : l.length - 1 - (j / 8 - 1) = l.length + 1 - 1 - j / 8 := by omega
        rw [hidx]
      · have hin1 : ¬ j / 8 - 1 < l.length := by omega
        rw [decide_eq_false hin, decide_eq_false hin1]
        rfl

/-- Bit `i` of a 32-byte string, counted from the most significant bit of
byte 0, is bit `255 - i` of its value. -/
theorem digestBit_eq_testBit (h : Digest) (i : Nat) (hi : i < 256) :
    digestBit h.val i = (unsignedValue h.val).testBit (255 - i) := by
  rw [unsignedValue_testBit, h.property]
  have hd : (255 - i) / 8 = 31 - i / 8 := by omega
  have hm : (255 - i) % 8 = 7 - i % 8 := by omega
  have hlt : 31 - i / 8 < 32 := by omega
  have hidx : 32 - 1 - (31 - i / 8) = i / 8 := by omega
  rw [hd, hm, decide_eq_true hlt, hidx]
  rfl

/-- A 32-byte value is below `2 ^ (256 - D)` exactly when its first `D` bits
are zero. -/
theorem unsignedValue_lt_iff_leading_zero (h : Digest) (D : Nat) (hD : D ≤ 256) :
    unsignedValue h.val < 2 ^ (256 - D) ↔ ∀ i : Nat, i < D → digestBit h.val i = false := by
  constructor
  · intro hlt i hi
    rw [digestBit_eq_testBit h i (by omega)]
    apply Nat.testBit_lt_two_pow
    exact lt_of_lt_of_le hlt (Nat.pow_le_pow_right (by norm_num) (by omega))
  · intro hz
    apply Nat.lt_pow_two_of_testBit
    intro j hj
    by_cases hbig : 256 ≤ j
    · apply Nat.testBit_lt_two_pow
      have hl := unsignedValue_lt h.val
      rw [h.property] at hl
      have h256 : ((256 : Nat) ^ 32) = 2 ^ 256 := by norm_num
      rw [h256] at hl
      exact lt_of_lt_of_le hl (Nat.pow_le_pow_right (by norm_num) hbig)
    · have hb := digestBit_eq_testBit h (255 - j) (by omega)
      have hidx : 255 - (255 - j) = j := by omega
      rw [hidx] at hb
      rw [← hb]
      exact hz (255 - j) (by omega)

/-- C17: for every 32-byte digest `h` and every `D` with `0 ≤ D ≤ 256`, the
comparison `Run` and `Validate` make, `h` read as a big-endian unsigned integer
strictly less than the target `2 ^ (256 - D)`, holds if and only if the first
`D` bits of `h`, most significant bit of byte 0 first, are all zero. -/
theorem difficulty_is_leading_zero_bits (h : Digest) (D : Int) (b : Block) (h0 : 0 ≤ D)
    (h1 : D ≤ 256) :
    (NewProofOfWork D b).target = 2 ^ (256 - D).toNat ∧
    (SetBytes h.val < (NewProofOfWork D b).target ↔
      ∀ i : Nat, (i : Int) < D → digestBit h.val i = false) := by
  have ht := target_of_le D b h0 h1
  refine ⟨ht, ?_⟩
  rw [ht, SetBytes_eq_unsignedValue]
  have hk : (256 - D).toNat = 256 - D.toNat := by omega
  have hcast : ((unsignedValue h.val : Nat) : Int) < 2 ^ (256 - D).toNat ↔
      unsignedValue h.val < 2 ^ (256 - D.toNat) := by
    rw [hk]
    exact_mod_cast Iff.rfl
  rw [hcast, unsignedValue_lt_iff_leading_zero h D.toNat (by omega)]
  constructor
  · intro hz i hi
    exact hz i (by omega)
  · intro hz i hi
    exact hz i (by omega)

set_option maxRecDepth 100000 in
/-- C17 at the digest `00000326a4ef...` of the sealed genesis block, whose
first 22 bits are zero and whose bit 22 is one: it is below the target at
difficulty 22 and not below the target at difficulty 23. -/
theorem difficulty_is_leading_zero_bits_witness :
    ((0 : Int) ≤ 22 ∧ (22 : Int) ≤ 256) ∧
    (sha256 (prepareData targetBits (NewProofOfWork targetBits sealedGenesis) 0)).val =
      genesisHash ∧
    digestBit genesisHash 22 = true ∧
    SetBytes genesisHash < (NewProofOfWork 22 sealedGenesis).target ∧
    ¬ SetBytes genesisHash < (NewProofOfWork 23 sealedGenesis).target ∧
    ((NewProofOfWork 22 sealedGenesis).target = 2 ^ (256 - (22 : Int)).toNat ∧
    (SetBytes (sha256 (prepareData targetBits (NewProofOfWork targetBits sealedGenesis) 0)).val <
        (NewProofOfWork 22 sealedGenesis).target ↔
      ∀ i : Nat, (i : Int) < 22 →
        digestBit (sha256 (prepareData targetBits
          (NewProofOfWork targetBits sealedGenesis) 0)).val i = false)) :=
  ⟨⟨by decide, by decide⟩, by decide, by decide, by decide, by decide,
   difficulty_is_leading_zero_bits
     (sha256 (prepareData targetBits (NewProofOfWork targetBits sealedGenesis) 0)) 22
     sealedGenesis (by decide) (by decide)⟩

end Blockchain
